import Mathlib

/-!
Verification development for the seed-growth inversion engine of
`fatiando/potential/harvester.py` (with supporting mesh structure from
`fatiando/mesher/prism.py`).

The Python module is shallowly embedded below.  Dictionaries keyed by
physical-property names become association lists `List (String × ℚ)`;
the sparse estimate (`fatiando.utils.SparseList`, whose source is not in
the repository snapshot; the spec describes it as a mapping from cell
index to value with default zero) becomes a total function
`String → Int → ℚ`; Python integer arithmetic is modelled on `Int`
(Python `%` on a positive modulus agrees with `Int.emod`); floating
point values become exact rationals and, where square roots or norms
appear, reals.
-/

namespace Harvester

/-- A mesh cell (`Prism3D` dictionary): bounds of a right rectangular prism. -/
structure Cell where
  x1 : ℚ
  x2 : ℚ
  y1 : ℚ
  y2 : ℚ
  z1 : ℚ
  z2 : ℚ
deriving DecidableEq, Repr

instance : Inhabited Cell := ⟨⟨0, 0, 0, 0, 0, 0⟩⟩

/-- Modelled from the spec: the `PrismMesh` class (`fatiando.mesher.ddd`) is
not part of the repository snapshot; the harvester uses its attributes
`shape = (nz, ny, nx)`, `dims = (dx, dy, dz)`, `bounds = (x1,x2,y1,y2,z1,z2)`,
`size` and item access `mesh[i]` which per spec section 6 is
`cell_at(index) -> cell-or-absent`: the cell for a valid unmasked linear index
in `[0, size)`, absent (`None`) for masked cells or indices outside the grid.
`cells` lists the grid cells in flattened row-major order (`none` = masked),
so `size = cells.length = nz*ny*nx` for a well-formed mesh. -/
structure Mesh where
  nz : ℕ
  ny : ℕ
  nx : ℕ
  dx : ℚ
  dy : ℚ
  dz : ℚ
  x1 : ℚ
  x2 : ℚ
  y1 : ℚ
  y2 : ℚ
  z1 : ℚ
  z2 : ℚ
  cells : List (Option Cell)

/-- Number of cells of the full grid (`mesh.size`). -/
def Mesh.size (m : Mesh) : ℕ := m.cells.length

/-- Item access `mesh[i]`: the cell, or `none` when masked or out of range. -/
def Mesh.cellAt (m : Mesh) (i : Int) : Option Cell :=
  if i < 0 then none else m.cells.getD i.toNat none

/-- Property dictionary of a seed or neighbor: named physical property values. -/
abbrev Props := List (String × ℚ)

/-- A seed / frontier-neighbor record: the dictionaries
`{'index': n, 'props': props}` of the harvester, plus the `'neighbors'`
key (`around`) that `grow` adds to frontier members (empty before it is set). -/
inductive Neighbor : Type where
  | mk : Int → Props → List Neighbor → Neighbor

/-- The `'index'` entry. -/
def Neighbor.index : Neighbor → Int
  | .mk i _ _ => i

/-- The `'props'` entry. -/
def Neighbor.props : Neighbor → Props
  | .mk _ p _ => p

/-- The `'neighbors'` entry added by `grow` (full 26-connectivity list). -/
def Neighbor.around : Neighbor → List Neighbor
  | .mk _ _ a => a

instance : Inhabited Neighbor := ⟨Neighbor.mk 0 [] []⟩

/-- The global sparse estimate: property name and cell index to value,
default `0` (the `SparseList` per property of the spec data model). -/
abbrev Estimate := String → Int → ℚ

/-- Whether two property dictionaries share a property name
(the `p in tmp['props']` key-membership test). -/
def sharesKey (p q : Props) : Bool :=
  p.any fun a => q.any fun b => a.1 == b.1

/-- Key membership `p in props` for a property dictionary. -/
def hasKey (props : Props) (p : String) : Bool :=
  props.any fun pv => pv.1 == p

/-! ### find_neighbors -/

/-- The `above` candidate of `find_neighbors`: `tmp = n - nx*ny`, kept when
`up and tmp > 0` (note the strict inequality of the source). -/
def aboveOf (n nx ny : Int) (up : Bool) : Option Int :=
  if up = true ∧ n - nx * ny > 0 then some (n - nx * ny) else none

/-- The `bellow` candidate: `tmp = n + nx*ny`, kept when `down and tmp < size`. -/
def bellowOf (n nx ny sz : Int) (down : Bool) : Option Int :=
  if down = true ∧ n + nx * ny < sz then some (n + nx * ny) else none

/-- The `front` candidate: `n + 1`, kept when `n % nx < nx - 1`. -/
def frontOf (n nx : Int) : Option Int :=
  if n % nx < nx - 1 then some (n + 1) else none

/-- The `back` candidate: `n - 1`, kept when `n % nx != 0`. -/
def backOf (n nx : Int) : Option Int :=
  if n % nx ≠ 0 then some (n - 1) else none

/-- The `left` candidate: `n + nx`, kept when `n % (nx*ny) < nx*(ny - 1)`. -/
def leftOf (n nx ny : Int) : Option Int :=
  if n % (nx * ny) < nx * (ny - 1) then some (n + nx) else none

/-- The `right` candidate: `n - nx`, kept when `n % (nx*ny) >= nx`. -/
def rightOf (n nx ny : Int) : Option Int :=
  if n % (nx * ny) ≥ nx then some (n - nx) else none

/-- `find_neighbors(neighbor, mesh, full, up, down)`: the face neighbors
(and with `full` also the 20 diagonal neighbors, in source order), filtered to
candidates that exist in the mesh and are not masked; each result carries the
props of the input neighbor. -/
def findNeighbors (neighbor : Neighbor) (mesh : Mesh) (full up down : Bool) :
    List Neighbor :=
  let nx : Int := (mesh.nx : Int)
  let ny : Int := (mesh.ny : Int)
  let n := neighbor.index
  let above := aboveOf n nx ny up
  let bellow := bellowOf n nx ny (mesh.size : Int) down
  let front := frontOf n nx
  let back := backOf n nx
  let left := leftOf n nx ny
  let right := rightOf n nx ny
  let diag : List (Option Int) :=
    [ (match front, left with | some _, some l => some (l + 1) | _, _ => none),
      (match front, right with | some _, some r => some (r + 1) | _, _ => none),
      (match back, left with | some _, some l => some (l - 1) | _, _ => none),
      (match back, right with | some _, some r => some (r - 1) | _, _ => none),
      (match above, left with | some a, some _ => some (a + nx) | _, _ => none),
      (match above, right with | some a, some _ => some (a - nx) | _, _ => none),
      (match above, front with | some a, some _ => some (a + 1) | _, _ => none),
      (match above, back with | some a, some _ => some (a - 1) | _, _ => none),
      (match above, front, left with
        | some a, some _, some _ => some (a + nx + 1) | _, _, _ => none),
      (match above, front, right with
        | some a, some _, some _ => some (a - nx + 1) | _, _, _ => none),
      (match above, back, left with
        | some a, some _, some _ => some (a + nx - 1) | _, _, _ => none),
      (match above, back, right with
        | some a, some _, some _ => some (a - nx - 1) | _, _, _ => none),
      (match bellow, left with | some b, some _ => some (b + nx) | _, _ => none),
      (match bellow, right with | some b, some _ => some (b - nx) | _, _ => none),
      (match bellow, front with | some b, some _ => some (b + 1) | _, _ => none),
      (match bellow, back with | some b, some _ => some (b - 1) | _, _ => none),
      (match bellow, front, left with
        | some b, some _, some _ => some (b + nx + 1) | _, _, _ => none),
      (match bellow, front, right with
        | some b, some _, some _ => some (b - nx + 1) | _, _, _ => none),
      (match bellow, back, left with
        | some b, some _, some _ => some (b + nx - 1) | _, _, _ => none),
      (match bellow, back, right with
        | some b, some _, some _ => some (b - nx - 1) | _, _, _ => none) ]
  let indexes := [above, bellow, front, back, left, right] ++
    (if full then diag else [])
  ((indexes.filterMap id).filter fun i => (mesh.cellAt i).isSome).map
    fun i => Neighbor.mk i neighbor.props []

/-! ### Estimate bookkeeping helpers -/

/-- `in_estimate(estimate, neighbor)`: some physical property of the neighbor
is already set (non-zero) in the estimate at its cell. -/
def in_estimate (estimate : Estimate) (neighbor : Neighbor) : Bool :=
  neighbor.props.any fun p => decide (estimate p.1 neighbor.index ≠ 0)

/-- `free_neighbors(estimate, neighbors)`: drop the neighbors already set. -/
def free_neighbors (estimate : Estimate) (neighbors : List Neighbor) :
    List Neighbor :=
  neighbors.filter fun n => ¬ in_estimate estimate n

/-- `in_tha_hood(neighborhood, neighbor)`: whether some frontier already holds
a neighbor with the same index and an overlapping physical property. -/
def in_tha_hood (neighborhood : List (List Neighbor)) (neighbor : Neighbor) :
    Bool :=
  neighborhood.any fun ns => ns.any fun tmp =>
    neighbor.index == tmp.index && sharesKey neighbor.props tmp.props

/-- `not_neighbors(neighborhood, neighbors)`: drop the already-claimed ones. -/
def not_neighbors (neighborhood : List (List Neighbor))
    (neighbors : List Neighbor) : List Neighbor :=
  neighbors.filter fun n => ¬ in_tha_hood neighborhood n

/-- `is_compact(estimate, mesh, neighbor, compact)`: at least `compact` of the
stored 26-connectivity neighbors are already set in the estimate. -/
def is_compact (estimate : Estimate) (mesh : Mesh) (neighbor : Neighbor)
    (compact : ℕ) : Bool :=
  let around := neighbor.around
  let free := free_neighbors estimate around
  decide (around.length - free.length ≥ compact)

/-! ### numpy.argmin -/

/-- Helper for `argmin`: scan with the current `(best index, best value)`. -/
def argminAux : List ℚ → ℕ → ℕ × ℚ → ℕ × ℚ
  | [], _, best => best
  | x :: xs, i, best =>
      argminAux xs (i + 1) (if x < best.2 then (i, x) else best)

/-- `numpy.argmin`: index of the first occurrence of the minimum value. -/
def argmin : List ℚ → ℕ
  | [] => 0
  | x :: xs => (argminAux xs 1 (0, x)).1

/-! ### The Standard judges / juries -/

/-- `SeedPrism._standard_judge(goals, misfits, goal, misfit)`: filter the
candidates whose misfit differs relatively by at least `delta`, then pick the
one with the smallest goal among them; returns
`[best, goals[best], misfits[best]]`.  Note that the source filter does not
test `m < misfit`, although its docstring demands a misfit decrease. -/
def standard_judge (delta : ℚ) (goals misfits : List ℚ) (goal misfit : ℚ) :
    Option (ℕ × ℚ × ℚ) :=
  let decreased := (List.range misfits.length).filter fun i =>
    decide (|misfits.getD i 0 - misfit| / misfit ≥ delta)
  if decreased.isEmpty then none
  else
    let best := decreased.getD (argmin (decreased.map fun i => goals.getD i 0)) 0
    some (best, goals.getD best 0, misfits.getD best 0)

/-- The filtered `decreased` list of `standard_jury`: enumerated candidates
whose total data misfit strictly decreases and changes by at least the
relative fraction `thresh`.  `dmmisfit n` stands for
`sum(dm.misfit(dm.new_predicted(n, mesh)) for dm in datamods)`, the externally
supplied forward-model misfit (modelled from the spec as a black box, since
`new_predicted` belongs to the data-module API that is not in the snapshot). -/
def standardSurvivors (thresh : ℚ) (neighbors : List Neighbor) (misfit : ℚ)
    (dmmisfit : Neighbor → ℚ) : List (ℕ × ℚ) :=
  ((neighbors.enum).map fun p => (p.1, dmmisfit p.2)).filter fun p =>
    decide (p.2 < misfit ∧ |p.2 - misfit| / misfit ≥ thresh)

/-- Goal value `m + regularizer(neighbors[i], seed)` (or `m` without
regularizer) used by `standard_jury` for a surviving candidate `(i, m)`. -/
def juryGoal (regularizer : Option (Neighbor → Neighbor → ℚ)) (seed : Neighbor)
    (neighbors : List Neighbor) (p : ℕ × ℚ) : ℚ :=
  match regularizer with
  | some r => p.2 + r (neighbors.getD p.1 default) seed
  | none => p.2

/-- The jury closure produced by `standard_jury(regularizer, thresh, tol)`:
keep candidates that strictly decrease the misfit by at least the relative
fraction `thresh`, then return the one minimizing misfit + regularization
(`None` when no candidate survives). -/
def standard_jury (thresh : ℚ) (regularizer : Option (Neighbor → Neighbor → ℚ))
    (seed : Neighbor) (neighbors : List Neighbor) (misfit : ℚ)
    (dmmisfit : Neighbor → ℚ) : Option (ℕ × ℚ) :=
  let decreased := standardSurvivors thresh neighbors misfit dmmisfit
  if decreased.isEmpty then none
  else
    let goals := decreased.map (juryGoal regularizer seed neighbors)
    some (decreased.getD (argmin goals) (0, 0))

/-! ### The shape jury -/

/-- The compactness threshold of `shape_jury`:
`compact = 1 + it/nseeds`, truncated at `maxcmp`. -/
def shapeCompact (it nseeds maxcmp : ℕ) : ℕ :=
  let compact := 1 + it / nseeds
  if compact > maxcmp then maxcmp else compact

/-- The jury closure produced by `shape_jury(regularizer, thresh, maxcmp,
tol)`: filter candidates by the algorithmic compactness criterion, keep those
that decrease the goal function by at least the relative fraction `thresh`,
and among them pick the one minimizing the shape-of-anomaly score.
`dmmisfit`/`dmsoa` stand for the summed data-module misfit and
shape-of-anomaly scores of the candidate's predicted data (external
forward-model black boxes, modelled from the spec). -/
def shape_jury (thresh : ℚ) (maxcmp : ℕ)
    (regularizer : Option (Neighbor → Neighbor → ℚ)) (seed : Neighbor)
    (neighbors : List Neighbor) (estimate : Estimate) (goal : ℚ) (mesh : Mesh)
    (it nseeds : ℕ) (dmmisfit dmsoa : Neighbor → ℚ) : Option (ℕ × ℚ) :=
  let compact := shapeCompact it nseeds maxcmp
  let left : List (ℕ × Neighbor) := (neighbors.enum).filter fun p =>
    is_compact estimate mesh p.2 compact
  let misfits : List (ℕ × ℚ) := left.map fun p => (p.1, dmmisfit p.2)
  let goals : List (ℕ × ℚ) := match regularizer with
    | some r => (misfits.zip (left.map fun p => r p.2 seed)).map
        fun mr => (mr.1.1, mr.1.2 + mr.2)
    | none => misfits
  let decreased := goals.filter fun p =>
    decide (p.2 < goal ∧ |p.2 - goal| / goal ≥ thresh)
  if decreased.isEmpty then none
  else
    let soa := decreased.map fun p => dmsoa (neighbors.getD p.1 default)
    some (decreased.getD (argmin soa) (0, 0))

/-! ### The concentration regularizer -/

/-- `ConcentrationRegularizer.calc_dist`: Euclidean distance between the
lower corners `(x1, y1, z1)` of two cells. -/
noncomputable def calc_dist (cell1 cell2 : Cell) : ℝ :=
  let dx : ℚ := |cell1.x1 - cell2.x1|
  let dy : ℚ := |cell1.y1 - cell2.y1|
  let dz : ℚ := |cell1.z1 - cell2.z1|
  Real.sqrt ((dx : ℝ) ^ 2 + (dy : ℝ) ^ 2 + (dz : ℝ) ^ 2)

/-- The weight set by `ConcentrationRegularizer.__init__`:
`1 / ((nx*dx + ny*dy + nz*dz) / 3)` when weighting is enabled, else `1`. -/
def regularizerWeight (mesh : Mesh) (weight : Bool) : ℚ :=
  if weight then
    1 / (((mesh.nx : ℚ) * mesh.dx + (mesh.ny : ℚ) * mesh.dy +
          (mesh.nz : ℚ) * mesh.dz) / 3)
  else 1

/-- State of a `ConcentrationRegularizer` (`dists` is a pure memo of
`calc_dist` and is therefore not modelled explicitly). -/
structure ConcReg where
  mu : ℚ
  power : ℕ
  weight : ℚ
  reg : ℝ

/-- `ConcentrationRegularizer.__call__(neighbor, seed)`:
`reg + weight * mu * dist(mesh[n], mesh[s]) ** power`. -/
noncomputable def ConcReg.call (r : ConcReg) (mesh : Mesh)
    (neighbor seed : Neighbor) : ℝ :=
  let d := calc_dist ((mesh.cellAt neighbor.index).getD default)
    ((mesh.cellAt seed.index).getD default)
  r.reg + (r.weight : ℝ) * (r.mu : ℝ) * d ^ r.power

/-- `ConcentrationRegularizer.update(neighbor)`: accumulate the committed
candidate's score into the running total. -/
noncomputable def ConcReg.updateReg (r : ConcReg) (mesh : Mesh)
    (neighbor : Neighbor) : ConcReg :=
  let d := calc_dist ((mesh.cellAt neighbor.index).getD default) default
  { r with reg := r.reg + (r.weight : ℝ) * (r.mu : ℝ) * d ^ r.power }

/-- Euclidean distance between the centers of two cells. -/
noncomputable def centerDist (c1 c2 : Cell) : ℝ :=
  Real.sqrt
    ((((c1.x1 + c1.x2) / 2 - (c2.x1 + c2.x2) / 2 : ℚ) : ℝ) ^ 2 +
     (((c1.y1 + c1.y2) / 2 - (c2.y1 + c2.y2) / 2 : ℚ) : ℝ) ^ 2 +
     (((c1.z1 + c1.z2) / 2 - (c2.z1 + c2.z2) / 2 : ℚ) : ℝ) ^ 2)

/-- The regularizer score exactly as the specification words it:
`weight * mu * distance(candidate, seed_origin)^power` with `distance` the
Euclidean distance between cell centers and `weight` the reciprocal of the
mesh's average cell dimension `(dx + dy + dz) / 3`.  This definition follows
the spec text and is compared against the source formula `ConcReg.call`. -/
noncomputable def claimScore (mesh : Mesh) (mu : ℚ) (power : ℕ)
    (candidate seedCell : Cell) : ℝ :=
  ((1 / ((mesh.dx + mesh.dy + mesh.dz) / 3) : ℚ) : ℝ) * (mu : ℝ) *
    centerDist candidate seedCell ^ power

/-! ### The prism data module -/

/-- Elementwise difference of two data vectors. -/
def listSub (a b : List ℚ) : List ℚ := List.zipWith (fun x y => x - y) a b

/-- Elementwise sum of two data vectors. -/
def listAdd (a b : List ℚ) : List ℚ := List.zipWith (fun x y => x + y) a b

/-- `numpy.linalg.norm(v, n)` for the two norms accepted by the module:
the l1 norm for `n = 1`, else the l2 norm. -/
noncomputable def lnorm (n : ℕ) (v : List ℚ) : ℝ :=
  if n = 1 then (((v.map fun x => |x|).sum : ℚ) : ℝ)
  else Real.sqrt (((v.map fun x => x ^ 2).sum : ℚ) : ℝ)

/-- `numpy.max` over a rational list (first element as the base case). -/
def maxQ : List ℚ → ℚ
  | [] => 0
  | x :: xs => xs.foldl max x

/-- `DMPrism._shape_of_anomaly_l2`: residual l2 norm of
`alpha*data - predicted` with `alpha = sum(data*predicted)/norm(data,2)^2`. -/
noncomputable def shape_of_anomaly_l2 (data predicted : List ℚ) : ℝ :=
  let alpha : ℚ := (List.zipWith (fun x y => x * y) data predicted).sum /
    (data.map fun x => x ^ 2).sum
  lnorm 2 (listSub (data.map fun x => alpha * x) predicted)

/-- `DMPrism._shape_of_anomaly_l1`: residual l1 norm of
`alpha*data - predicted` with `alpha = max(predicted/data)`. -/
noncomputable def shape_of_anomaly_l1 (data predicted : List ℚ) : ℝ :=
  let alpha : ℚ := maxQ (List.zipWith (fun x y => x / y) predicted data)
  lnorm 1 (listSub (data.map fun x => alpha * x) predicted)

/-- State of a `DMPrism` data module.  `effect_of` injects the derived class
method `_effect_of_prism` (the forward-model black box of the spec);
`use_shape` records whether `use_shape()` replaced the misfit function. -/
structure DMPrism where
  data : List ℚ
  predicted : List ℚ
  norm : ℕ
  weight : ℝ
  effect : List (Int × List ℚ)
  prop_type : String
  effect_of : Int → Props → List ℚ
  use_shape : Bool

/-- The data misfit function of a `DMPrism`: the shape-of-anomaly variant
when `use_shape()` was called (l2 for norm 2, l1 for norm 1), otherwise
`weight * norm(data - predicted, norm)`. -/
noncomputable def DMPrism.dmisfit (dm : DMPrism) (predicted : List ℚ) : ℝ :=
  if dm.use_shape then
    if dm.norm = 2 then shape_of_anomaly_l2 dm.data predicted
    else shape_of_anomaly_l1 dm.data predicted
  else dm.weight * lnorm dm.norm (listSub dm.data predicted)

/-- `DMPrism.testdrive(element)`: misfit as if the element were included.
Returns the misfit value together with the updated module state (the effect
cache may gain an entry; nothing else changes). -/
noncomputable def DMPrism.testdrive (dm : DMPrism) (element : Int × Props) :
    ℝ × DMPrism :=
  let index := element.1
  let props := element.2
  if hasKey props dm.prop_type = false then
    (dm.dmisfit dm.predicted, dm)
  else
    let dm1 := if (dm.effect.lookup index).isSome then dm
      else { dm with effect := (index, dm.effect_of index props) :: dm.effect }
    let tmp := listAdd dm.predicted ((dm1.effect.lookup index).getD [])
    (dm1.dmisfit tmp, dm1)

/-- `DMPrism.update(element)`: fold the element's effect into the predicted
data and evict the cached effect; a no-op when the element does not carry the
tracked property type. -/
def DMPrism.update (dm : DMPrism) (element : Int × Props) : DMPrism :=
  let index := element.1
  let props := element.2
  if hasKey props dm.prop_type = true then
    let dm1 := if (dm.effect.lookup index).isSome then dm
      else { dm with effect := (index, dm.effect_of index props) :: dm.effect }
    { dm1 with
      predicted := listAdd dm1.predicted ((dm1.effect.lookup index).getD []),
      effect := dm1.effect.eraseP fun pr => pr.1 == index }
  else dm

/-! ### sow -/

/-- `numpy.arange(a, b, d)` over exact rationals. -/
def arange (a b d : ℚ) : List ℚ :=
  (List.range (⌈(b - a) / d⌉.toNat)).map fun i => a + (i : ℚ) * d

/-- `bisect.bisect_left` on a sorted rational list. -/
def bisect_left (l : List ℚ) (x : ℚ) : ℕ :=
  (l.takeWhile fun y => decide (y < x)).length

/-- Resolution of one raw seed inside `sow`: bounds test, `bisect`-based
index computation, and the `mesh[s] is not None` test. -/
def sowPlace (mesh : Mesh) (xs ys zs : List ℚ) (point : ℚ × ℚ × ℚ)
    (props : Props) : Option Neighbor :=
  let x := point.1
  let y := point.2.1
  let z := point.2.2
  if x ≤ mesh.x2 ∧ x ≥ mesh.x1 ∧ y ≤ mesh.y2 ∧ y ≥ mesh.y1 ∧
     z ≤ mesh.z2 ∧ z ≥ mesh.z1 then
    let k : Int := (bisect_left zs z : Int) - 1
    let j : Int := (bisect_left ys y : Int) - 1
    let i : Int := (bisect_left xs x : Int) - 1
    let s : Int := i + j * (mesh.nx : Int) + k * (mesh.nx : Int) * (mesh.ny : Int)
    if (mesh.cellAt s).isSome then some (Neighbor.mk s props []) else none
  else none

/-- The resolution loop of `sow`: raise (error) at the first seed that cannot
be found, otherwise collect the resolved seeds in order. -/
def sowResolveAll (mesh : Mesh) (xs ys zs : List ℚ) :
    List ((ℚ × ℚ × ℚ) × Props) → Except String (List Neighbor)
  | [] => Except.ok []
  | rp :: rest =>
    match sowPlace mesh xs ys zs rp.1 rp.2 with
    | none => Except.error "Couldnt find seed at location"
    | some nb =>
      match sowResolveAll mesh xs ys zs rest with
      | Except.error e => Except.error e
      | Except.ok seeds => Except.ok (nb :: seeds)

/-- The duplicate scan of `sow`: pairs `i < j` of resolved seeds with the
same mesh index and overlapping physical properties. -/
def sowDuplicates (seeds : List Neighbor) : List (ℕ × ℕ) :=
  (List.range seeds.length).flatMap fun i =>
    (List.range seeds.length).filterMap fun j =>
      if i < j ∧ (seeds.getD i default).index = (seeds.getD j default).index ∧
         sharesKey (seeds.getD j default).props (seeds.getD i default).props = true
      then some (i, j) else none

/-- `sow(mesh, rawseeds)`: resolve every raw seed to a mesh cell, then fail
when two resolved seeds share a location and a physical property. -/
def sow (mesh : Mesh) (rawseeds : List ((ℚ × ℚ × ℚ) × Props)) :
    Except String (List Neighbor) :=
  let xs := arange mesh.x1 mesh.x2 mesh.dx
  let ys := arange mesh.y1 mesh.y2 mesh.dy
  let zs := arange mesh.z1 mesh.z2 mesh.dz
  match sowResolveAll mesh xs ys zs rawseeds with
  | Except.error e => Except.error e
  | Except.ok seeds =>
    if (sowDuplicates seeds).isEmpty then Except.ok seeds
    else Except.error "Cant have seeds with same location and physical properties"

/-- `sow_prisms(points, props, mesh)`: build one seed per point, but keep a
seed only when its resolved cell index differs from every previously kept
seed (otherwise the source logs and ignores it).  Modelled from the spec:
`SeedPrism._get_index` is an unimplemented stub in the snapshot, and per spec
section 6 a location resolves to the unique mesh cell containing it, so the
resolver is taken as a parameter. -/
def sow_prisms (resolve : ℚ × ℚ × ℚ → Int) (points : List (ℚ × ℚ × ℚ))
    (props : List (String × List ℚ)) : List (Int × Props) :=
  points.enum.foldl
    (fun seeds ip =>
      let sprops : Props := props.map fun p => (p.1, p.2.getD ip.1 0)
      let index := resolve ip.2
      if seeds.any fun s => s.1 == index then seeds
      else seeds ++ [(index, sprops)])
    []

/-! ### The grow loop -/

/-- Point update of the estimate: `estimate[p][i] = v`. -/
def setEstimate (e : Estimate) (p : String) (i : Int) (v : ℚ) : Estimate :=
  fun q j => if q = p ∧ j = i then v else e q j

/-- `for p in props: estimate[p][i] = props[p]`. -/
def commitProps (e : Estimate) (i : Int) (props : Props) : Estimate :=
  props.foldl (fun acc pv => setEstimate acc pv.1 i pv.2) e

/-- Attach the `'neighbors'` key: `n['neighbors'] = find_neighbors(n, mesh,
full=True)`. -/
def annotate (mesh : Mesh) (n : Neighbor) : Neighbor :=
  Neighbor.mk n.index n.props (findNeighbors n mesh true true true)

/-- The frontier extension of `grow`:
`not_neighbors(neighborhood, free_neighbors(estimate, find_neighbors(cell,
mesh)))`, each annotated with its full 26-connectivity neighbors. -/
def newNeighborsOf (mesh : Mesh) (estimate : Estimate)
    (hood : List (List Neighbor)) (cell : Neighbor) : List Neighbor :=
  (not_neighbors hood
    (free_neighbors estimate (findNeighbors cell mesh false true true))).map
    (annotate mesh)

/-- A jury as consumed by `grow`: given seed, frontier, estimate, current
goal, iteration and seed count, return `None` or the index of the chosen
frontier member together with the new goal value. -/
abbrev Jury :=
  Neighbor → List Neighbor → Estimate → ℚ → ℕ → ℕ → Option (ℕ × ℚ)

/-- State threaded through `grow`.  `committed` and `accretions` are ghost
bookkeeping exposing, per seed, the cells it has claimed (the origin first)
and the total number of accepted accretions. -/
structure GrowState where
  estimate : Estimate
  neighborhood : List (List Neighbor)
  goal : ℚ
  committed : List (List Int)
  accretions : ℕ

/-- The frontier-initialization loop of `grow`: each seed's frontier is built
against the frontiers of the previous seeds. -/
def initHood (mesh : Mesh) (e : Estimate) (hood : List (List Neighbor)) :
    List Neighbor → List (List Neighbor)
  | [] => hood
  | seed :: rest => initHood mesh e (hood ++ [newNeighborsOf mesh e hood seed]) rest

/-- The initialization of `grow`: write every seed into the estimate, then
build the per-seed frontiers; `goal0` is the initial total misfit
`sum(dm.misfit(dm.predicted) for dm in datamods)` (external black box). -/
def growInit (seeds : List Neighbor) (mesh : Mesh) (goal0 : ℚ) : GrowState :=
  let e := seeds.foldl (fun acc s => commitProps acc s.index s.props)
    fun _ _ => 0
  { estimate := e
    neighborhood := initHood mesh e [] seeds
    goal := goal0
    committed := seeds.map fun s => [s.index]
    accretions := 0 }

/-- One seed's turn inside a pass of `grow`: ask the jury; on acceptance
commit the chosen frontier member into the estimate, pop it, and extend the
frontier with its fresh unclaimed neighbors.  The boolean reports growth. -/
def seedTurn (jury : Jury) (mesh : Mesh) (nseeds iteration si : ℕ)
    (seed : Neighbor) (s : GrowState) : GrowState × Bool :=
  let neighbors := s.neighborhood.getD si []
  match jury seed neighbors s.estimate s.goal iteration nseeds with
  | none => (s, false)
  | some (j, g) =>
    if j < neighbors.length then
      let best := neighbors.getD j default
      let e := commitProps s.estimate best.index best.props
      let rest := neighbors.eraseIdx j
      let hood1 := s.neighborhood.set si rest
      let newns := newNeighborsOf mesh e hood1 best
      ({ estimate := e
         neighborhood := hood1.set si (rest ++ newns)
         goal := g
         committed := s.committed.set si (s.committed.getD si [] ++ [best.index])
         accretions := s.accretions + 1 }, true)
    else (s, false)

/-- One pass of `grow` over all seeds in list order; the boolean is
`onegrew`. -/
def growPass (jury : Jury) (mesh : Mesh) (seeds : List Neighbor)
    (iteration : ℕ) (s : GrowState) : GrowState × Bool :=
  (List.range seeds.length).foldl
    (fun acc si =>
      let r := seedTurn jury mesh seeds.length iteration si
        (seeds.getD si default) acc.1
      (r.1, acc.2 || r.2))
    (s, false)

/-- The accretion loop of `grow`: at most `fuel` passes, stopping at the
first pass with no growth. -/
def growLoop (jury : Jury) (mesh : Mesh) (seeds : List Neighbor) :
    ℕ → ℕ → GrowState → GrowState
  | 0, _, s => s
  | fuel + 1, iteration, s =>
    let r := growPass jury mesh seeds iteration s
    if r.2 then growLoop jury mesh seeds fuel (iteration + 1) r.1 else r.1

/-- A full run of `grow`: initialization followed by at most
`mesh.size - len(seeds)` passes. -/
def growRun (jury : Jury) (seeds : List Neighbor) (mesh : Mesh) (goal0 : ℚ) :
    GrowState :=
  growLoop jury mesh seeds (mesh.size - seeds.length) 0
    (growInit seeds mesh goal0)

/-- States of `grow` reachable from initialization by seed turns (any seed,
any pass index); every state the loop passes through is of this shape. -/
inductive Reachable (jury : Jury) (seeds : List Neighbor) (mesh : Mesh)
    (goal0 : ℚ) : GrowState → Prop where
  | init : Reachable jury seeds mesh goal0 (growInit seeds mesh goal0)
  | step : ∀ {s : GrowState} (iteration si : ℕ), si < seeds.length →
      Reachable jury seeds mesh goal0 s →
      Reachable jury seeds mesh goal0
        (seedTurn jury mesh seeds.length iteration si
          (seeds.getD si default) s).1

/-! ### Concrete instances used by witnesses and counterexamples -/

/-- A 2-by-1-by-1 mesh (shape `(nz, ny, nx) = (2, 1, 1)`), both cells
present. -/
def mesh211 : Mesh :=
  { nz := 2, ny := 1, nx := 1, dx := 1, dy := 1, dz := 1,
    x1 := 0, x2 := 1, y1 := 0, y2 := 1, z1 := 0, z2 := 2,
    cells := [some default, some default] }

/-- A 1-by-1-by-3 mesh, all three cells present. -/
def mesh13 : Mesh :=
  { nz := 1, ny := 1, nx := 3, dx := 1, dy := 1, dz := 1,
    x1 := 0, x2 := 3, y1 := 0, y2 := 1, z1 := 0, z2 := 1,
    cells := [some default, some default, some default] }

/-- A jury that always accepts the first frontier candidate. -/
def cjury4 : Jury := fun _ neighbors _ goal _ _ =>
  if neighbors.isEmpty then none else some (0, goal)

/-- A jury that never accepts. -/
def cjuryNone : Jury := fun _ _ _ _ _ _ => none

/-- Two seeds with distinct locations and disjoint property names. -/
def cseeds4 : List Neighbor :=
  [Neighbor.mk 0 [("density", 1)] [], Neighbor.mk 2 [("susceptibility", 1)] []]

/-- Two seeds with distinct locations and the same property name. -/
def cseedsW : List Neighbor :=
  [Neighbor.mk 0 [("density", 1)] [], Neighbor.mk 2 [("density", 1)] []]

/-- A 1-by-1-by-1 mesh with unit bounds, used by the `sow` witness. -/
def meshSow : Mesh :=
  { nz := 1, ny := 1, nx := 1, dx := 1, dy := 1, dz := 1,
    x1 := 0, x2 := 1, y1 := 0, y2 := 1, z1 := 0, z2 := 1,
    cells := [some default] }

/-- The unit cell with corner at the origin. -/
def cellA : Cell := ⟨0, 1, 0, 1, 0, 1⟩

/-- The unit cell next to `cellA` in the x direction. -/
def cellB : Cell := ⟨1, 2, 0, 1, 0, 1⟩

/-- A 1-by-1-by-2 mesh (shape `(1, 1, 2)`) with unit cells. -/
def mesh112 : Mesh :=
  { nz := 1, ny := 1, nx := 2, dx := 1, dy := 1, dz := 1,
    x1 := 0, x2 := 2, y1 := 0, y2 := 1, z1 := 0, z2 := 1,
    cells := [some cellA, some cellB] }

/-- A concentration regularizer on `mesh112` with `mu = 1`, default power 3
and the weighting of the source enabled. -/
noncomputable def creg6 : ConcReg :=
  { mu := 1, power := 3, weight := regularizerWeight mesh112 true, reg := 0 }

/-- The frontier record of cell 1 of `mesh112`. -/
def nb1 : Neighbor := Neighbor.mk 1 [("density", 1)] []

/-- The seed record of cell 0 of `mesh112`. -/
def nb0 : Neighbor := Neighbor.mk 0 [("density", 1)] []

/-- A concrete gravity data module tracking `density`. -/
def cdm10 : DMPrism :=
  { data := [1], predicted := [0], norm := 1, weight := 1, effect := [],
    prop_type := "density", effect_of := fun _ _ => [], use_shape := false }

/-- Raw seed list used by the `sow` witness. -/
def cSowRaw : List ((ℚ × ℚ × ℚ) × Props) :=
  [((1 / 2, 1 / 2, 1 / 2), [("density", 10)])]

/-- Resolved seed list of the `sow` witness. -/
def cSowSeeds : List Neighbor := [Neighbor.mk 0 [("density", 10)] []]

/-- Estimate with `density` committed at cell 0 only. -/
def cEst9 : Estimate := fun p i => if p = "density" ∧ i = 0 then 1 else 0

/-- A frontier candidate at cell 1 whose stored 26-connectivity list holds
the committed cell 0. -/
def cnb9 : Neighbor :=
  Neighbor.mk 1 [("density", 1)] [Neighbor.mk 0 [("density", 1)] []]

/-- Well-formedness of a seed list: no two seeds share a location together
with an overlapping property name, and all property values are non-zero. -/
def SeedsOK (seeds : List Neighbor) : Prop :=
  List.Pairwise
    (fun a b => ¬(a.index = b.index ∧ sharesKey a.props b.props = true)) seeds ∧
  ∀ a ∈ seeds, ∀ pv ∈ a.props, pv.2 ≠ 0

/-- All seeds carry the same non-empty property-name list. -/
def SameProps (seeds : List Neighbor) (ks : List String) : Prop :=
  ks ≠ [] ∧ ∀ a ∈ seeds, a.props.map Prod.fst = ks

/-- Inductive invariant of the grow loop for claim C2: structure sizes,
propagation of seed props to frontiers, committed cells marked non-zero in
the estimate, disjointness of frontiers, frontiers fresh with respect to
other seeds' commitments, and claim uniqueness. -/
structure GrowInv (seeds : List Neighbor) (s : GrowState) : Prop where
  hoodLen : s.neighborhood.length = seeds.length
  commLen : s.committed.length = seeds.length
  propsEq : ∀ si, si < seeds.length → ∀ n ∈ s.neighborhood.getD si [],
    n.props = (seeds.getD si default).props
  commNZ : ∀ i, i < seeds.length → ∀ c ∈ s.committed.getD i [],
    ∀ pv ∈ (seeds.getD i default).props, s.estimate pv.1 c ≠ 0
  hoodDisj : ∀ si sj, si < seeds.length → sj < seeds.length → si ≠ sj →
    ∀ n ∈ s.neighborhood.getD si [], ∀ m ∈ s.neighborhood.getD sj [],
    ¬(n.index = m.index ∧ sharesKey n.props m.props = true)
  hoodComm : ∀ sj, sj < seeds.length → ∀ n ∈ s.neighborhood.getD sj [],
    ∀ i, i < seeds.length → i ≠ sj →
    ¬(n.index ∈ s.committed.getD i [] ∧
      sharesKey n.props (seeds.getD i default).props = true)
  claims : ∀ i j, i < seeds.length → j < seeds.length → i ≠ j →
    ∀ c : Int, c ∈ s.committed.getD i [] → c ∈ s.committed.getD j [] →
    sharesKey (seeds.getD i default).props (seeds.getD j default).props = false

/-- Additional inductive invariant for the accretion bound of claim C4
(meaningful when all seeds share one non-empty property set). -/
structure GrowInv4 (seeds : List Neighbor) (mesh : Mesh) (s : GrowState) :
    Prop where
  base : GrowInv seeds s
  hoodNodup : ∀ si, si < seeds.length →
    (s.neighborhood.getD si []).Pairwise fun a b => a.index ≠ b.index
  hoodValid : ∀ si, si < seeds.length → ∀ n ∈ s.neighborhood.getD si [],
    (mesh.cellAt n.index).isSome = true
  hoodFresh : ∀ si, si < seeds.length → ∀ n ∈ s.neighborhood.getD si [],
    n.index ∉ s.committed.getD si []
  commValid : ∀ i, i < seeds.length → ∀ c ∈ s.committed.getD i [],
    (mesh.cellAt c).isSome = true
  commNodup : ∀ i, i < seeds.length → (s.committed.getD i []).Nodup
  commDisj : ∀ i j, i < seeds.length → j < seeds.length → i ≠ j →
    ∀ c : Int, c ∈ s.committed.getD i [] → c ∉ s.committed.getD j []
  accCount : s.accretions + seeds.length = (s.committed.map List.length).sum

/-- The state produced by an accepted accretion of `grow` for seed `si`
choosing frontier position `j` with new goal value `g` (the commit branch of
`seedTurn`, named for the invariant proofs). -/
def commitState (mesh : Mesh) (si : ℕ) (s : GrowState) (j : ℕ) (g : ℚ) :
    GrowState :=
  let neighbors := s.neighborhood.getD si []
  let best := neighbors.getD j default
  let e := commitProps s.estimate best.index best.props
  let rest := neighbors.eraseIdx j
  let hood1 := s.neighborhood.set si rest
  let newns := newNeighborsOf mesh e hood1 best
  { estimate := e
    neighborhood := hood1.set si (rest ++ newns)
    goal := g
    committed := s.committed.set si (s.committed.getD si [] ++ [best.index])
    accretions := s.accretions + 1 }

/-! ## Theorems -/

/-- Claim C3: face-neighbor symmetry fails on the code.  On the fully
unmasked 2-by-1-by-1 mesh, cell 1 is returned among the face neighbors of
cell 0, but cell 0 is not among the face neighbors of cell 1 (the `tmp > 0`
test of `find_neighbors` wrongly rejects the valid index 0), although
neither cell is masked or out of bounds. -/
theorem c3_find_neighbors_asymmetric :
    (findNeighbors (Neighbor.mk 0 [("density", 1)] []) mesh211 false
      true true).map Neighbor.index = [1] ∧
    (findNeighbors (Neighbor.mk 1 [("density", 1)] []) mesh211 false
      true true).map Neighbor.index = [] ∧
    mesh211.cellAt 0 ≠ none ∧ mesh211.cellAt 1 ≠ none := by decide

/-- Claim C4, counterexample: with two seeds of disjoint property names on a
fully unmasked 1-by-1-by-3 mesh, a run of `grow` (with a jury that accepts
the first candidate) performs 2 accretions while
`mesh_size - seed_count = 1`. -/
theorem c4_counterexample :
    (growRun cjury4 cseeds4 mesh13 0).accretions = 2 ∧
    mesh13.size - cseeds4.length = 1 := by decide

/-- Claim C7, counterexample: `sow_prisms` given twice the same point with
the same property silently keeps only the first seed; it raises no error. -/
theorem c7_counterexample_sow_prisms_drops :
    sow_prisms (fun _ => 0) [(0, 0, 0), (0, 0, 0)] [("density", [10, 10])] =
      [(0, [("density", 10)])] := by decide

/-- Claim C10: committing an element whose properties do not include the data
module's tracked property type leaves the predicted data vector and the
per-cell effect cache unchanged. -/
theorem c10_update_noop (dm : DMPrism) (index : Int) (props : Props)
    (h : hasKey props dm.prop_type = false) :
    (dm.update (index, props)).predicted = dm.predicted ∧
    (dm.update (index, props)).effect = dm.effect := by
  simp [DMPrism.update, h]

/-- Witness for C10 at a concrete module and element. -/
theorem c10_witness :
    hasKey [("susceptibility", 5)] cdm10.prop_type = false ∧
    ((cdm10.update (0, [("susceptibility", 5)])).predicted = cdm10.predicted ∧
     (cdm10.update (0, [("susceptibility", 5)])).effect = cdm10.effect) :=
  ⟨by decide, c10_update_noop cdm10 0 [("susceptibility", 5)] (by decide)⟩

/-- Claim C1: `SeedPrism._standard_judge` accepts a candidate that strictly
increases the misfit.  With one candidate of misfit 2, current misfit 1 and
`delta = 1/2`, the judge accepts it (the filter only tests the relative
change, not a decrease, contradicting its own docstring), so the misfit
history increases from 1 to 2. -/
theorem c1_standard_judge_accepts_misfit_increase :
    standard_judge (1 / 2) [2] [2] 1 1 = some (0, 2, 2) ∧ (1 : ℚ) < 2 := by
  constructor
  · have h : decide ((2⁻¹ : ℚ) ≤ |2 - 1|) = true := by
      rw [decide_eq_true_eq]
      norm_num
    simp [standard_judge, List.range_succ, List.filter, h, argmin, argminAux]
  · norm_num

/-- For congruent cells (as on a regular mesh) the corner-to-corner distance
computed by `calc_dist` equals the center-to-center distance. -/
theorem calc_dist_eq_centerDist (c1 c2 : Cell)
    (hx : c1.x2 - c1.x1 = c2.x2 - c2.x1)
    (hy : c1.y2 - c1.y1 = c2.y2 - c2.y1)
    (hz : c1.z2 - c1.z1 = c2.z2 - c2.z1) :
    calc_dist c1 c2 = centerDist c1 c2 := by
  unfold calc_dist centerDist
  have ex : ((c1.x1 + c1.x2) / 2 - (c2.x1 + c2.x2) / 2 : ℚ) = c1.x1 - c2.x1 := by
    field_simp
    linarith
  have ey : ((c1.y1 + c1.y2) / 2 - (c2.y1 + c2.y2) / 2 : ℚ) = c1.y1 - c2.y1 := by
    field_simp
    linarith
  have ez : ((c1.z1 + c1.z2) / 2 - (c2.z1 + c2.z2) / 2 : ℚ) = c1.z1 - c2.z1 := by
    field_simp
    linarith
  rw [ex, ey, ez]
  push_cast
  rw [sq_abs, sq_abs, sq_abs]

/-- The distance between the two cells of `mesh112` is 1. -/
theorem calc_dist_cellB_cellA : calc_dist cellB cellA = 1 := by
  unfold calc_dist cellB cellA
  norm_num

/-- Claim C6, counterexample: on the 1-by-1-by-2 unit-cell mesh with
`mu = 1`, the source regularizer scores the neighboring cell (distance 1)
as `3/4` (its weight is the reciprocal of the mean mesh extent), while the
claimed formula with the reciprocal of the average cell dimension gives 1. -/
theorem c6_counterexample :
    creg6.call mesh112 nb1 nb0 = 3 / 4 ∧
    claimScore mesh112 1 3 cellB cellA = 1 ∧ ((3 / 4 : ℝ) ≠ 1) := by
  refine ⟨?_, ?_, by norm_num⟩
  · have h1 : mesh112.cellAt nb1.index = some cellB := by decide
    have h0 : mesh112.cellAt nb0.index = some cellA := by decide
    unfold ConcReg.call
    rw [h1, h0]
    simp only [Option.getD_some, calc_dist_cellB_cellA]
    unfold creg6 regularizerWeight mesh112
    norm_num
  · have hc : centerDist cellB cellA = 1 := by
      unfold centerDist cellB cellA
      norm_num
    unfold claimScore
    rw [hc]
    unfold mesh112
    norm_num

/-- Claim C6 (amended): for a candidate and seed resolving to congruent mesh
cells, the regularizer call returns the running total plus
`weight * mu * d ^ power`, where `d` is the Euclidean distance between the
cell centers and `weight` is the reciprocal of the mean of the mesh's
per-axis total extents `(nx*dx + ny*dy + nz*dz) / 3` (not of the average
cell dimension). -/
theorem c6_amended (r : ConcReg) (mesh : Mesh) (n s : Neighbor) (c1 c2 : Cell)
    (hw : r.weight = regularizerWeight mesh true)
    (hn : mesh.cellAt n.index = some c1) (hs : mesh.cellAt s.index = some c2)
    (hx : c1.x2 - c1.x1 = c2.x2 - c2.x1)
    (hy : c1.y2 - c1.y1 = c2.y2 - c2.y1)
    (hz : c1.z2 - c1.z1 = c2.z2 - c2.z1) :
    r.call mesh n s =
      r.reg + ((3 / ((mesh.nx : ℚ) * mesh.dx + (mesh.ny : ℚ) * mesh.dy +
        (mesh.nz : ℚ) * mesh.dz) : ℚ) : ℝ) * (r.mu : ℝ) *
        centerDist c1 c2 ^ r.power := by
  unfold ConcReg.call
  rw [hn, hs]
  simp only [Option.getD_some]
  rw [calc_dist_eq_centerDist c1 c2 hx hy hz, hw]
  unfold regularizerWeight
  rw [if_pos rfl, one_div_div]

/-- Witness for the amended C6 at the concrete mesh `mesh112`. -/
theorem c6_witness :
    (creg6.weight = regularizerWeight mesh112 true ∧
     mesh112.cellAt nb1.index = some cellB ∧
     mesh112.cellAt nb0.index = some cellA ∧
     cellB.x2 - cellB.x1 = cellA.x2 - cellA.x1 ∧
     cellB.y2 - cellB.y1 = cellA.y2 - cellA.y1 ∧
     cellB.z2 - cellB.z1 = cellA.z2 - cellA.z1) ∧
    creg6.call mesh112 nb1 nb0 =
      creg6.reg + ((3 / ((mesh112.nx : ℚ) * mesh112.dx +
        (mesh112.ny : ℚ) * mesh112.dy + (mesh112.nz : ℚ) * mesh112.dz) : ℚ) : ℝ) *
        (creg6.mu : ℝ) * centerDist cellB cellA ^ creg6.power :=
  ⟨⟨rfl, by decide, by decide, by norm_num [cellA, cellB], by norm_num [cellA, cellB],
     by norm_num [cellA, cellB]⟩,
    c6_amended creg6 mesh112 nb1 nb0 cellB cellA rfl (by decide) (by decide)
      (by norm_num [cellA, cellB]) (by norm_num [cellA, cellB])
      (by norm_num [cellA, cellB])⟩

/-- Claim C8: `testdrive` is pure up to its effect cache.  Calling it twice
on the same element with no intervening commit returns identical misfit
values, and neither call changes the module's predicted data vector. -/
theorem c8_testdrive_pure (dm : DMPrism) (e : Int × Props) :
    (dm.testdrive e).1 = ((dm.testdrive e).2.testdrive e).1 ∧
    (dm.testdrive e).2.predicted = dm.predicted ∧
    ((dm.testdrive e).2.testdrive e).2.predicted = dm.predicted := by
  unfold DMPrism.testdrive
  by_cases h : hasKey e.2 dm.prop_type = false
  · simp [h]
  · rw [Bool.not_eq_false] at h
    by_cases hl : (dm.effect.lookup e.1).isSome
    · simp [h, hl]
    · simp [h, hl]

/-- Specification of the `argmin` scan: the result value is a lower bound of
the base value and of all list elements, and the result is either the base
pair or an indexed element of the list. -/
theorem argminAux_spec (xs : List ℚ) (i : ℕ) (best : ℕ × ℚ) :
    (argminAux xs i best).2 ≤ best.2 ∧
    (∀ k, k < xs.length → (argminAux xs i best).2 ≤ xs.getD k 0) ∧
    (argminAux xs i best = best ∨
      ∃ k, k < xs.length ∧ argminAux xs i best = (i + k, xs.getD k 0)) := by
  induction xs generalizing i best with
  | nil => simp [argminAux]
  | cons x xs ih =>
    have hstep : argminAux (x :: xs) i best =
        argminAux xs (i + 1) (if x < best.2 then (i, x) else best) := rfl
    obtain ⟨ih1, ih2, ih3⟩ := ih (i + 1) (if x < best.2 then (i, x) else best)
    rw [hstep]
    refine ⟨?_, ?_, ?_⟩
    · refine le_trans ih1 ?_
      split
      · exact le_of_lt (by assumption)
      · exact le_rfl
    · intro k hk
      cases k with
      | zero =>
        refine le_trans ih1 ?_
        split
        · simp
        · simpa using le_of_not_lt (by assumption)
      | succ k =>
        simpa using ih2 k (by simpa using hk)
    · rcases ih3 with h | ⟨k, hk, hr⟩
      · rw [h]
        split
        · exact Or.inr ⟨0, by simp⟩
        · exact Or.inl rfl
      · refine Or.inr ⟨k + 1, by simpa using hk, ?_⟩
        rw [hr]
        have hi : i + 1 + k = i + (k + 1) := by omega
        rw [hi]
        simp

/-- `argmin` of a nonempty list is a valid index achieving the minimum. -/
theorem argmin_spec (l : List ℚ) (h : l ≠ []) :
    argmin l < l.length ∧ ∀ k, k < l.length → l.getD (argmin l) 0 ≤ l.getD k 0 := by
  match l with
  | [] => exact absurd rfl h
  | x :: xs =>
    obtain ⟨h1, h2, h3⟩ := argminAux_spec xs 1 (0, x)
    have hval : (x :: xs).getD (argmin (x :: xs)) 0 = (argminAux xs 1 (0, x)).2 := by
      rcases h3 with he | ⟨k, hk, he⟩
      · rw [show argmin (x :: xs) = (argminAux xs 1 (0, x)).1 from rfl, he]
        simp
      · rw [show argmin (x :: xs) = (argminAux xs 1 (0, x)).1 from rfl, he]
        have hk1 : 1 + k = k + 1 := by omega
        simp [hk1]
    constructor
    · rcases h3 with he | ⟨k, hk, he⟩
      · rw [show argmin (x :: xs) = (argminAux xs 1 (0, x)).1 from rfl, he]
        simp
      · rw [show argmin (x :: xs) = (argminAux xs 1 (0, x)).1 from rfl, he]
        simp only [List.length_cons]
        omega
    · intro k hk
      rw [hval]
      cases k with
      | zero => simpa using h1
      | succ k => simpa using h2 k (by simpa using hk)

/-- `getD` of a mapped list at an in-range index. -/
theorem getD_map_lt {α β : Type} (f : α → β) (l : List α) (k : ℕ)
    (hk : k < l.length) (d : β) (d2 : α) :
    (l.map f).getD k d = f (l.getD k d2) := by
  induction l generalizing k with
  | nil => simp at hk
  | cons x xs ih =>
    cases k with
    | zero => simp
    | succ k => simpa using ih k (by simpa using hk)

/-- Claim C5: `standard_jury` returns `None` exactly when no frontier
candidate survives the misfit filter, and otherwise returns a surviving
candidate whose combined objective (misfit plus regularization) is minimal
among all survivors. -/
theorem c5_standard_jury_minimizes (thresh : ℚ)
    (regularizer : Option (Neighbor → Neighbor → ℚ)) (seed : Neighbor)
    (neighbors : List Neighbor) (misfit : ℚ) (dmmisfit : Neighbor → ℚ) :
    (standard_jury thresh regularizer seed neighbors misfit dmmisfit = none ↔
      standardSurvivors thresh neighbors misfit dmmisfit = []) ∧
    (standardSurvivors thresh neighbors misfit dmmisfit ≠ [] →
      ∃ k, k < (standardSurvivors thresh neighbors misfit dmmisfit).length ∧
        standard_jury thresh regularizer seed neighbors misfit dmmisfit =
          some ((standardSurvivors thresh neighbors misfit dmmisfit).getD k (0, 0)) ∧
        ∀ j, j < (standardSurvivors thresh neighbors misfit dmmisfit).length →
          juryGoal regularizer seed neighbors
            ((standardSurvivors thresh neighbors misfit dmmisfit).getD k (0, 0)) ≤
          juryGoal regularizer seed neighbors
            ((standardSurvivors thresh neighbors misfit dmmisfit).getD j (0, 0))) := by
  have hunfold : standard_jury thresh regularizer seed neighbors misfit dmmisfit =
      if (standardSurvivors thresh neighbors misfit dmmisfit).isEmpty then none
      else some ((standardSurvivors thresh neighbors misfit dmmisfit).getD
        (argmin ((standardSurvivors thresh neighbors misfit dmmisfit).map
          (juryGoal regularizer seed neighbors))) (0, 0)) := rfl
  by_cases he : (standardSurvivors thresh neighbors misfit dmmisfit).isEmpty = true
  · have hSnil : standardSurvivors thresh neighbors misfit dmmisfit = [] :=
      List.isEmpty_iff.mp he
    constructor
    · rw [hunfold, if_pos he]
      simp [hSnil]
    · intro hne
      exact absurd hSnil hne
  · have hSne : standardSurvivors thresh neighbors misfit dmmisfit ≠ [] := by
      simpa [List.isEmpty_iff] using he
    constructor
    · rw [hunfold, if_neg he]
      exact iff_of_false (by simp) hSne
    · intro _
      have hgne : (standardSurvivors thresh neighbors misfit dmmisfit).map
          (juryGoal regularizer seed neighbors) ≠ [] := by
        simpa using hSne
      obtain ⟨hlt, hmin⟩ := argmin_spec _ hgne
      rw [List.length_map] at hlt
      refine ⟨_, hlt, by rw [hunfold, if_neg he], ?_⟩
      intro j hj
      have h1 := hmin j (by simpa using hj)
      rwa [getD_map_lt _ _ _ hlt _ (0, 0), getD_map_lt _ _ _ hj _ (0, 0)] at h1

/-- Witness for C5 at a one-candidate frontier that survives the filter. -/
theorem c5_witness :
    standardSurvivors 0 [nb0] 1 (fun _ => 0) ≠ [] ∧
    (∃ k, k < (standardSurvivors 0 [nb0] 1 (fun _ => 0)).length ∧
      standard_jury 0 none default [nb0] 1 (fun _ => 0) =
        some ((standardSurvivors 0 [nb0] 1 (fun _ => 0)).getD k (0, 0)) ∧
      ∀ j, j < (standardSurvivors 0 [nb0] 1 (fun _ => 0)).length →
        juryGoal none default [nb0]
          ((standardSurvivors 0 [nb0] 1 (fun _ => 0)).getD k (0, 0)) ≤
        juryGoal none default [nb0]
          ((standardSurvivors 0 [nb0] 1 (fun _ => 0)).getD j (0, 0))) := by
  have hS : standardSurvivors 0 [nb0] 1 (fun _ => 0) = [(0, 0)] := by
    unfold standardSurvivors
    have hd : decide (((0 : ℚ) < 1 ∧ |(0 : ℚ) - 1| / 1 ≥ 0)) = true := by
      rw [decide_eq_true_eq]
      norm_num
    simp only [List.enum, List.enumFrom, List.map, List.filter]
    norm_num
  exact ⟨by rw [hS]; simp,
    (c5_standard_jury_minimizes 0 none default [nb0] 1 (fun _ => 0)).2
      (by rw [hS]; simp)⟩

/-- The resolution loop of `sow` keeps exactly one seed per raw seed. -/
theorem sowResolveAll_length (mesh : Mesh) (xs ys zs : List ℚ)
    (rawseeds : List ((ℚ × ℚ × ℚ) × Props)) (seeds : List Neighbor)
    (h : sowResolveAll mesh xs ys zs rawseeds = Except.ok seeds) :
    seeds.length = rawseeds.length := by
  induction rawseeds generalizing seeds with
  | nil =>
    simp only [sowResolveAll, Except.ok.injEq] at h
    simp [← h]
  | cons rp rest ih =>
    unfold sowResolveAll at h
    cases hp : sowPlace mesh xs ys zs rp.1 rp.2 with
    | none => rw [hp] at h; simp at h
    | some nb =>
      rw [hp] at h
      cases hr : sowResolveAll mesh xs ys zs rest with
      | error e => rw [hr] at h; simp at h
      | ok s2 =>
        rw [hr] at h
        simp only [Except.ok.injEq] at h
        rw [← h]
        simp [ih s2 hr]

/-- A conflicting pair of resolved seeds appears in the duplicate scan. -/
theorem sowDuplicates_spec (seeds : List Neighbor) (i j : ℕ) (hij : i < j)
    (hj : j < seeds.length)
    (hc : (seeds.getD i default).index = (seeds.getD j default).index ∧
      sharesKey (seeds.getD j default).props (seeds.getD i default).props = true) :
    (i, j) ∈ sowDuplicates seeds := by
  unfold sowDuplicates
  rw [List.mem_flatMap]
  refine ⟨i, by simp; omega, ?_⟩
  rw [List.mem_filterMap]
  exact ⟨j, by simp [hj], by rw [if_pos ⟨hij, hc.1, hc.2⟩]⟩

/-- Claim C7 (amended): when `sow` succeeds, it returns one seed per raw seed
(nothing merged or dropped) and no two returned seeds share a location and an
overlapping property name — any such conflict makes `sow` raise instead.
(`sow_prisms`, by contrast, silently drops a later seed resolving to an
already-used cell; see the counterexample.) -/
theorem c7_sow_rejects_duplicates (mesh : Mesh)
    (rawseeds : List ((ℚ × ℚ × ℚ) × Props)) (seeds : List Neighbor)
    (h : sow mesh rawseeds = Except.ok seeds) :
    seeds.length = rawseeds.length ∧
    ∀ i j, i < j → j < seeds.length →
      ¬((seeds.getD i default).index = (seeds.getD j default).index ∧
        sharesKey (seeds.getD j default).props
          (seeds.getD i default).props = true) := by
  simp only [sow] at h
  cases hr : sowResolveAll mesh (arange mesh.x1 mesh.x2 mesh.dx)
      (arange mesh.y1 mesh.y2 mesh.dy) (arange mesh.z1 mesh.z2 mesh.dz)
      rawseeds with
  | error e => rw [hr] at h; simp at h
  | ok s2 =>
    rw [hr] at h
    dsimp only at h
    by_cases hd : (sowDuplicates s2).isEmpty = true
    · rw [if_pos hd] at h
      simp only [Except.ok.injEq] at h
      subst h
      refine ⟨sowResolveAll_length mesh _ _ _ rawseeds s2 hr, ?_⟩
      intro i j hij hj hc
      have hmem := sowDuplicates_spec s2 i j hij hj hc
      rw [List.isEmpty_iff] at hd
      rw [hd] at hmem
      simp at hmem
    · rw [if_neg hd] at h
      simp at h

/-- Witness for the amended C7: a concrete successful `sow` run. -/
theorem c7_witness :
    sow meshSow cSowRaw = Except.ok cSowSeeds ∧
    (cSowSeeds.length = cSowRaw.length ∧
     ∀ i j, i < j → j < cSowSeeds.length →
       ¬((cSowSeeds.getD i default).index = (cSowSeeds.getD j default).index ∧
         sharesKey (cSowSeeds.getD j default).props
           (cSowSeeds.getD i default).props = true)) := by
  have harange : arange 0 1 1 = [0] := by
    unfold arange
    rw [show (((1 : ℚ) - 0) / 1) = 1 by norm_num]
    norm_num [List.range_succ]
  have hbis : bisect_left [0] (1 / 2) = 1 := by
    unfold bisect_left
    have hd : decide ((0 : ℚ) < 1 / 2) = true := by
      rw [decide_eq_true_eq]
      norm_num
    simp [List.takeWhile, hd]
  have hplace : sowPlace meshSow [0] [0] [0] (1 / 2, 1 / 2, 1 / 2)
      [("density", 10)] = some (Neighbor.mk 0 [("density", 10)] []) := by
    unfold sowPlace
    rw [if_pos (by norm_num [meshSow])]
    rw [show ((1 / 2 : ℚ), (1 / 2 : ℚ), (1 / 2 : ℚ)).2.2 = 1 / 2 from rfl] at *
    simp only [hbis]
    norm_num [meshSow, Mesh.cellAt]
  have hresolve : sowResolveAll meshSow [0] [0] [0] cSowRaw =
      Except.ok cSowSeeds := by
    unfold cSowRaw
    unfold sowResolveAll
    dsimp only
    rw [hplace]
    rfl
  have hsow : sow meshSow cSowRaw = Except.ok cSowSeeds := by
    have h1 : sow meshSow cSowRaw =
        match sowResolveAll meshSow (arange 0 1 1) (arange 0 1 1) (arange 0 1 1)
            cSowRaw with
        | Except.error e => Except.error e
        | Except.ok seeds =>
          if (sowDuplicates seeds).isEmpty = true then Except.ok seeds
          else Except.error
            "Cant have seeds with same location and physical properties" := rfl
    rw [h1, harange, hresolve]
    dsimp only
    rw [if_pos (by decide)]
  exact ⟨hsow, c7_sow_rejects_duplicates meshSow cSowRaw cSowSeeds hsow⟩

/-- `getD` at an in-range index is a member. -/
theorem getD_mem_of_lt {α : Type} (l : List α) (i : ℕ) (d : α)
    (h : i < l.length) : l.getD i d ∈ l := by
  induction l generalizing i with
  | nil => simp at h
  | cons x xs ih =>
    cases i with
    | zero => simp
    | succ i =>
      right
      exact ih i (by simpa using h)

/-- A list splits into the elements satisfying a predicate and the rest. -/
theorem length_filter_split {α : Type} (l : List α) (p : α → Bool) :
    l.length = (l.filter p).length + (l.filter fun a => !(p a)).length := by
  induction l with
  | nil => simp
  | cons x xs ih =>
    by_cases h : p x = true <;> simp [h, List.filter_cons, ih] <;> omega

/-- The compactness test counts exactly the stored neighbors already set in
the estimate. -/
theorem is_compact_iff_countP (estimate : Estimate) (mesh : Mesh)
    (n : Neighbor) (compact : ℕ) :
    is_compact estimate mesh n compact = true ↔
      compact ≤ n.around.countP fun a => in_estimate estimate a := by
  unfold is_compact free_neighbors
  rw [decide_eq_true_eq, List.countP_eq_length_filter]
  have hfun : (fun a => decide ¬in_estimate estimate a = true) =
      fun a => !(in_estimate estimate a) := by
    funext a
    simp
  rw [hfun]
  have hsplit := length_filter_split n.around fun a => in_estimate estimate a
  omega

/-- The compactness threshold of `shape_jury` is monotone in the iteration
count. -/
theorem shapeCompact_mono (nseeds maxcmp it1 it2 : ℕ) (h : it1 ≤ it2) :
    shapeCompact it1 nseeds maxcmp ≤ shapeCompact it2 nseeds maxcmp := by
  unfold shapeCompact
  dsimp only
  have hdiv : it1 / nseeds ≤ it2 / nseeds := Nat.div_le_div_right h
  split <;> split <;> omega

/-- The compactness threshold of `shape_jury` never exceeds the configured
maximum. -/
theorem shapeCompact_le (it nseeds maxcmp : ℕ) :
    shapeCompact it nseeds maxcmp ≤ maxcmp := by
  unfold shapeCompact
  dsimp only
  split <;> omega

/-- Every goal-stage pair of `shape_jury` comes from a compactness-filtered
candidate with the same index. -/
theorem mem_shape_goals (regularizer : Option (Neighbor → Neighbor → ℚ))
    (seed : Neighbor) (dmmisfit : Neighbor → ℚ) (L : List (ℕ × Neighbor))
    (p : ℕ × ℚ)
    (hp : p ∈ (match regularizer with
      | some r => ((L.map fun q : ℕ × Neighbor => (q.1, dmmisfit q.2)).zip
          (L.map fun q : ℕ × Neighbor => r q.2 seed)).map
            fun mr : (ℕ × ℚ) × ℚ => (mr.1.1, mr.1.2 + mr.2)
      | none => L.map fun q : ℕ × Neighbor => (q.1, dmmisfit q.2))) :
    ∃ n, (p.1, n) ∈ L := by
  match regularizer with
  | none =>
    simp only at hp
    obtain ⟨q, hq, he⟩ := List.mem_map.mp hp
    refine ⟨q.2, ?_⟩
    have h1 : p.1 = q.1 := by
      rw [← he]
    rw [h1]
    simpa using hq
  | some r =>
    simp only at hp
    obtain ⟨⟨⟨i, m⟩, rv⟩, hmr, he⟩ := List.mem_map.mp hp
    have h1 : (i, m) ∈ L.map fun q => (q.1, dmmisfit q.2) := (List.mem_zip hmr).1
    obtain ⟨q, hq, he2⟩ := List.mem_map.mp h1
    refine ⟨q.2, ?_⟩
    have h2 : p.1 = q.1 := by
      have : q.1 = i := by
        have := congrArg Prod.fst he2
        simpa using this
      rw [← he, this]
    rw [h2]
    simpa using hq

/-- The candidate chosen by `shape_jury` passed the compactness filter. -/
theorem shape_jury_chosen (thresh : ℚ) (maxcmp : ℕ)
    (regularizer : Option (Neighbor → Neighbor → ℚ)) (seed : Neighbor)
    (neighbors : List Neighbor) (estimate : Estimate) (goal : ℚ) (mesh : Mesh)
    (it nseeds : ℕ) (dmmisfit dmsoa : Neighbor → ℚ) (ig : ℕ × ℚ)
    (hsome : shape_jury thresh maxcmp regularizer seed neighbors estimate goal
      mesh it nseeds dmmisfit dmsoa = some ig) :
    ∃ n, (ig.1, n) ∈ (neighbors.enum).filter fun p =>
      is_compact estimate mesh p.2 (shapeCompact it nseeds maxcmp) := by
  unfold shape_jury at hsome
  dsimp only at hsome
  generalize hL : (neighbors.enum).filter
      (fun p => is_compact estimate mesh p.2 (shapeCompact it nseeds maxcmp)) = L
      at hsome ⊢
  generalize hG : (match regularizer with
    | some r => ((L.map fun q : ℕ × Neighbor => (q.1, dmmisfit q.2)).zip
        (L.map fun q : ℕ × Neighbor => r q.2 seed)).map
          fun mr : (ℕ × ℚ) × ℚ => (mr.1.1, mr.1.2 + mr.2)
    | none => L.map fun q : ℕ × Neighbor => (q.1, dmmisfit q.2)) = G at hsome
  generalize hDq : (G.filter fun p =>
    decide (p.2 < goal ∧ |p.2 - goal| / goal ≥ thresh)) = D at hsome
  by_cases hD : D.isEmpty = true
  · rw [if_pos hD] at hsome
    exact absurd hsome (by simp)
  · rw [if_neg hD] at hsome
    have hDne : D ≠ [] := by simpa [List.isEmpty_iff] using hD
    have hSne : D.map (fun p => dmsoa (neighbors.getD p.1 default)) ≠ [] := by
      simpa using hDne
    obtain ⟨hlt, _⟩ := argmin_spec _ hSne
    rw [List.length_map] at hlt
    have hig : ig ∈ D := by
      have hm := getD_mem_of_lt D
        (argmin (D.map fun p => dmsoa (neighbors.getD p.1 default))) (0, 0) hlt
      rwa [Option.some_inj.mp hsome] at hm
    rw [← hDq] at hig
    have higG : ig ∈ G := (List.mem_filter.mp hig).1
    rw [← hG] at higG
    exact mem_shape_goals regularizer seed dmmisfit L ig higG

/-- Claim C9: a frontier candidate is chosen by the shape-based policy only
if at least `compact` of its stored 26-connected neighbors are already
committed in the estimate, where `compact = 1 + it/nseeds` truncated at the
configured maximum grows monotonically with the iteration count. -/
theorem c9_shape_compactness (thresh : ℚ) (maxcmp : ℕ)
    (regularizer : Option (Neighbor → Neighbor → ℚ)) (seed : Neighbor)
    (neighbors : List Neighbor) (estimate : Estimate) (goal : ℚ) (mesh : Mesh)
    (it nseeds : ℕ) (dmmisfit dmsoa : Neighbor → ℚ) (ig : ℕ × ℚ)
    (hsome : shape_jury thresh maxcmp regularizer seed neighbors estimate goal
      mesh it nseeds dmmisfit dmsoa = some ig) :
    (∃ n, (ig.1, n) ∈ neighbors.enum ∧
      shapeCompact it nseeds maxcmp ≤
        n.around.countP fun a => in_estimate estimate a) ∧
    (∀ it1 it2, it1 ≤ it2 →
      shapeCompact it1 nseeds maxcmp ≤ shapeCompact it2 nseeds maxcmp) ∧
    ∀ itx, shapeCompact itx nseeds maxcmp ≤ maxcmp := by
  refine ⟨?_, fun it1 it2 h => shapeCompact_mono nseeds maxcmp it1 it2 h,
    fun itx => shapeCompact_le itx nseeds maxcmp⟩
  obtain ⟨n, hn⟩ := shape_jury_chosen thresh maxcmp regularizer seed neighbors
    estimate goal mesh it nseeds dmmisfit dmsoa ig hsome
  have h2 := List.mem_filter.mp hn
  exact ⟨n, h2.1, (is_compact_iff_countP estimate mesh n _).mp h2.2⟩

/-- Witness for C9 at a concrete accepted candidate. -/
theorem c9_witness :
    shape_jury 0 4 none default [cnb9] cEst9 1 mesh13 0 1
      (fun _ => 0) (fun _ => 0) = some (0, 0) ∧
    ((∃ n, (((0, 0) : ℕ × ℚ).1, n) ∈ ([cnb9] : List Neighbor).enum ∧
        shapeCompact 0 1 4 ≤ n.around.countP fun a => in_estimate cEst9 a) ∧
     (∀ it1 it2, it1 ≤ it2 → shapeCompact it1 1 4 ≤ shapeCompact it2 1 4) ∧
     ∀ itx, shapeCompact itx 1 4 ≤ 4) := by
  have hsome : shape_jury 0 4 none default [cnb9] cEst9 1 mesh13 0 1
      (fun _ => 0) (fun _ => 0) = some (0, 0) := by
    have hstep : shape_jury 0 4 none default [cnb9] cEst9 1 mesh13 0 1
        (fun _ => 0) (fun _ => 0) =
        (let D := [((0 : ℕ), (0 : ℚ))].filter fun p =>
           decide (p.2 < 1 ∧ |p.2 - 1| / 1 ≥ 0)
         if D.isEmpty then none
         else some (D.getD (argmin (D.map fun p =>
           (fun _ => (0 : ℚ)) (([cnb9] : List Neighbor).getD p.1 default))) (0, 0))) :=
      rfl
    rw [hstep]
    have hd : decide (((0 : ℚ) < 1 ∧ |(0 : ℚ) - 1| / 1 ≥ 0)) = true := by
      rw [decide_eq_true_eq]
      norm_num
    dsimp only
    simp only [List.filter_cons, List.filter_nil, hd]
    simp [argmin, argminAux]
  exact ⟨hsome, c9_shape_compactness 0 4 none default [cnb9] cEst9 1 mesh13 0 1
    (fun _ => 0) (fun _ => 0) (0, 0) hsome⟩

/-! ### List and estimate helper lemmas for the grow-loop invariants -/

/-- `getD` after `set` at the same in-range index. -/
theorem getD_set_self {α : Type} (l : List α) (i : ℕ) (a d : α)
    (h : i < l.length) : (l.set i a).getD i d = a := by
  induction l generalizing i with
  | nil => simp at h
  | cons x xs ih =>
    cases i with
    | zero => simp
    | succ i => simpa using ih i (by simpa using h)

/-- `getD` after `set` at a different index. -/
theorem getD_set_ne {α : Type} (l : List α) (i j : ℕ) (a d : α) (h : i ≠ j) :
    (l.set i a).getD j d = l.getD j d := by
  induction l generalizing i j with
  | nil => simp
  | cons x xs ih =>
    cases i with
    | zero =>
      cases j with
      | zero => exact absurd rfl h
      | succ j => simp
    | succ i =>
      cases j with
      | zero => simp
      | succ j => simpa using ih i j (by omega)

/-- Unfolding `commitProps` over a cons cell. -/
theorem commitProps_cons (e : Estimate) (i : Int) (x : String × ℚ)
    (rest : Props) :
    commitProps e i (x :: rest) = commitProps (setEstimate e x.1 i x.2) i rest :=
  rfl

/-- `commitProps` only writes at the cell being committed. -/
theorem commitProps_ne (e : Estimate) (i : Int) (props : Props) (q : String)
    (c : Int) (h : c ≠ i) : commitProps e i props q c = e q c := by
  induction props generalizing e with
  | nil => rfl
  | cons pv rest ih =>
    rw [commitProps_cons, ih]
    unfold setEstimate
    rw [if_neg]
    intro hc
    exact h hc.2

/-- `commitProps` with non-zero values keeps non-zero points non-zero. -/
theorem commitProps_nonzero_preserve (e : Estimate) (i : Int) (props : Props)
    (q : String) (c : Int) (hv : ∀ pv ∈ props, pv.2 ≠ 0) (he : e q c ≠ 0) :
    commitProps e i props q c ≠ 0 := by
  induction props generalizing e with
  | nil => exact he
  | cons pv rest ih =>
    rw [commitProps_cons]
    refine ih (setEstimate e pv.1 i pv.2) (fun x hx => hv x (by simp [hx])) ?_
    unfold setEstimate
    split
    · exact hv pv (by simp)
    · exact he

/-- After `commitProps` with non-zero values, every written key is
non-zero at the committed cell. -/
theorem commitProps_key_nonzero : ∀ (props : Props) (e : Estimate) (i : Int)
    (pv : String × ℚ), pv ∈ props → (∀ x ∈ props, x.2 ≠ 0) →
    commitProps e i props pv.1 i ≠ 0 := by
  intro props
  induction props with
  | nil =>
    intro e i pv hmem _
    simp at hmem
  | cons x rest ih =>
    intro e i pv hmem hv
    rw [commitProps_cons]
    rcases List.mem_cons.mp hmem with he | hm
    · refine commitProps_nonzero_preserve _ i rest _ _
        (fun y hy => hv y (by simp [hy])) ?_
      unfold setEstimate
      rw [he, if_pos ⟨rfl, rfl⟩]
      exact hv x (by simp)
    · exact ih (setEstimate e x.1 i x.2) i pv hm fun y hy => hv y (by simp [hy])

/-- `sharesKey` is symmetric. -/
theorem sharesKey_comm (p q : Props) (h : sharesKey p q = true) :
    sharesKey q p = true := by
  unfold sharesKey at h ⊢
  rw [List.any_eq_true] at h ⊢
  obtain ⟨a, ha, hi⟩ := h
  rw [List.any_eq_true] at hi
  obtain ⟨b, hb, he⟩ := hi
  refine ⟨b, hb, ?_⟩
  rw [List.any_eq_true]
  refine ⟨a, ha, ?_⟩
  rw [beq_iff_eq] at he ⊢
  exact he.symm

/-- A shared key yields explicit witnesses. -/
theorem sharesKey_exists (p q : Props) (h : sharesKey p q = true) :
    ∃ a ∈ p, ∃ b ∈ q, a.1 = b.1 := by
  unfold sharesKey at h
  rw [List.any_eq_true] at h
  obtain ⟨a, ha, hi⟩ := h
  rw [List.any_eq_true] at hi
  obtain ⟨b, hb, he⟩ := hi
  rw [beq_iff_eq] at he
  exact ⟨a, ha, b, hb, he⟩

/-- Two property dictionaries with the same non-empty key list share a key. -/
theorem sharesKey_of_sameKeys (p q : Props) (ks : List String) (hne : ks ≠ [])
    (hp : p.map Prod.fst = ks) (hq : q.map Prod.fst = ks) :
    sharesKey p q = true := by
  match ks, hne with
  | k :: ks, _ =>
    have hpk : k ∈ p.map Prod.fst := by rw [hp]; simp
    have hqk : k ∈ q.map Prod.fst := by rw [hq]; simp
    obtain ⟨a, ha, hae⟩ := List.mem_map.mp hpk
    obtain ⟨b, hb, hbe⟩ := List.mem_map.mp hqk
    unfold sharesKey
    rw [List.any_eq_true]
    refine ⟨a, ha, ?_⟩
    rw [List.any_eq_true]
    exact ⟨b, hb, by rw [beq_iff_eq, hae, hbe]⟩

/-- Reading `in_tha_hood = false` pointwise. -/
theorem of_not_in_tha_hood {hood : List (List Neighbor)} {n : Neighbor}
    (h : in_tha_hood hood n = false) :
    ∀ lst ∈ hood, ∀ m ∈ lst,
      ¬(n.index = m.index ∧ sharesKey n.props m.props = true) := by
  intro lst hlst m hm hc
  have htrue : in_tha_hood hood n = true := by
    unfold in_tha_hood
    rw [List.any_eq_true]
    refine ⟨lst, hlst, ?_⟩
    rw [List.any_eq_true]
    refine ⟨m, hm, ?_⟩
    rw [Bool.and_eq_true, beq_iff_eq]
    exact ⟨hc.1, hc.2⟩
  rw [h] at htrue
  exact Bool.false_ne_true htrue

/-- Reading `in_estimate = false` pointwise. -/
theorem of_not_in_estimate {e : Estimate} {n : Neighbor}
    (h : in_estimate e n = false) : ∀ pv ∈ n.props, e pv.1 n.index = 0 := by
  intro pv hpv
  unfold in_estimate at h
  rw [List.any_eq_false] at h
  have h1 := h pv hpv
  simpa using h1

/-- Members of a `find_neighbors` result copy the input props, denote
existing unmasked cells, and carry no stored 26-connectivity list. -/
theorem mem_findNeighbors {nb : Neighbor} {mesh : Mesh} {full up down : Bool}
    {m : Neighbor} (h : m ∈ findNeighbors nb mesh full up down) :
    m.props = nb.props ∧ (mesh.cellAt m.index).isSome = true := by
  unfold findNeighbors at h
  obtain ⟨i, hi, rfl⟩ := List.mem_map.mp h
  have h2 := (List.mem_filter.mp hi).2
  exact ⟨rfl, by simpa using h2⟩

/-- Members of the frontier extension of `grow`: they copy the committed
cell's props, are free in the estimate, and conflict with no current
frontier entry. -/
theorem mem_newNeighborsOf {mesh : Mesh} {e : Estimate}
    {hood : List (List Neighbor)} {cell n : Neighbor}
    (h : n ∈ newNeighborsOf mesh e hood cell) :
    n.props = cell.props ∧
    (mesh.cellAt n.index).isSome = true ∧
    (∀ pv ∈ n.props, e pv.1 n.index = 0) ∧
    (∀ lst ∈ hood, ∀ m ∈ lst,
      ¬(n.index = m.index ∧ sharesKey n.props m.props = true)) := by
  unfold newNeighborsOf not_neighbors free_neighbors at h
  obtain ⟨n0, hn0, rfl⟩ := List.mem_map.mp h
  have hidx : (annotate mesh n0).index = n0.index := rfl
  have hpr : (annotate mesh n0).props = n0.props := rfl
  have h1 := List.mem_filter.mp hn0
  have hthood : in_tha_hood hood n0 = false := by
    have := h1.2
    simpa using this
  have h2 := List.mem_filter.mp h1.1
  have hfree : in_estimate e n0 = false := by
    have := h2.2
    simpa using this
  obtain ⟨hfp, hfs⟩ := mem_findNeighbors h2.1
  refine ⟨by rw [hpr, hfp], by rw [hidx]; exact hfs, ?_, ?_⟩
  · intro pv hpv
    rw [hpr] at hpv
    rw [hidx]
    exact of_not_in_estimate hfree pv hpv
  · intro lst hlst m hm hc
    rw [hidx, hpr] at hc
    exact of_not_in_tha_hood hthood lst hlst m hm hc

/-- A seed turn either leaves the state unchanged or performs the commit of
an in-range frontier position. -/
theorem seedTurn_cases (jury : Jury) (mesh : Mesh) (nseeds iteration si : ℕ)
    (seed : Neighbor) (s : GrowState) :
    (seedTurn jury mesh nseeds iteration si seed s).1 = s ∨
    ∃ j, j < (s.neighborhood.getD si []).length ∧ ∃ g : ℚ,
      (seedTurn jury mesh nseeds iteration si seed s).1 =
        commitState mesh si s j g := by
  unfold seedTurn
  dsimp only
  cases hj : jury seed (s.neighborhood.getD si []) s.estimate s.goal iteration
      nseeds with
  | none => exact Or.inl rfl
  | some jg =>
    obtain ⟨j, g⟩ := jg
    dsimp only
    by_cases hlt : j < (s.neighborhood.getD si []).length
    · rw [if_pos hlt]
      exact Or.inr ⟨j, hlt, g, rfl⟩
    · rw [if_neg hlt]
      exact Or.inl rfl

/-- The commit branch of a seed turn preserves the C2 invariant. -/
theorem commitState_inv (mesh : Mesh) (seeds : List Neighbor) (si : ℕ)
    (hsi : si < seeds.length) (s : GrowState) (j : ℕ) (g : ℚ)
    (hlt : j < (s.neighborhood.getD si []).length)
    (hok : SeedsOK seeds) (inv : GrowInv seeds s) :
    GrowInv seeds (commitState mesh si s j g) := by
  have hsHood : si < s.neighborhood.length := by rw [inv.hoodLen]; exact hsi
  have hsComm : si < s.committed.length := by rw [inv.commLen]; exact hsi
  set nbs := s.neighborhood.getD si [] with hnbs
  set best := nbs.getD j default with hbestdef
  have hbm : best ∈ nbs := getD_mem_of_lt nbs j default hlt
  have hbprops : best.props = (seeds.getD si default).props :=
    inv.propsEq si hsi best hbm
  have hseedmem : seeds.getD si default ∈ seeds :=
    getD_mem_of_lt seeds si default hsi
  have hbvals : ∀ pv ∈ best.props, pv.2 ≠ 0 := by
    rw [hbprops]
    exact fun pv hpv => hok.2 _ hseedmem pv hpv
  set e2 := commitProps s.estimate best.index best.props with he2
  set rest := nbs.eraseIdx j with hrest
  have hrestsub : ∀ m ∈ rest, m ∈ nbs := by
    intro m hm
    exact (List.eraseIdx_sublist nbs j).subset hm
  set hood1 := s.neighborhood.set si rest with hhood1
  set newns := newNeighborsOf mesh e2 hood1 best with hnewns
  have hcs : commitState mesh si s j g =
      { estimate := e2
        neighborhood := hood1.set si (rest ++ newns)
        goal := g
        committed := s.committed.set si (s.committed.getD si [] ++ [best.index])
        accretions := s.accretions + 1 } := rfl
  rw [hcs]
  have hood1_mem_lists : ∀ sj, sj < seeds.length → sj ≠ si →
      s.neighborhood.getD sj [] ∈ hood1 := by
    intro sj hsj hss
    have heq : hood1.getD sj [] = s.neighborhood.getD sj [] :=
      getD_set_ne _ _ _ _ _ fun he => hss he.symm
    rw [← heq]
    refine getD_mem_of_lt hood1 sj [] ?_
    rw [hhood1, List.length_set, inv.hoodLen]
    exact hsj
  have hood1_mem_rest : rest ∈ hood1 := by
    have heq : hood1.getD si [] = rest := getD_set_self _ _ _ _ hsHood
    rw [← heq]
    refine getD_mem_of_lt hood1 si [] ?_
    rw [hhood1, List.length_set]
    exact hsHood
  have hood_cases : ∀ sj, sj < seeds.length → ∀ m : Neighbor,
      m ∈ (hood1.set si (rest ++ newns)).getD sj [] →
      (sj = si ∧ (m ∈ rest ∨ m ∈ newns)) ∨
      (sj ≠ si ∧ m ∈ s.neighborhood.getD sj []) := by
    intro sj hsj m hm
    by_cases hss : sj = si
    · subst hss
      rw [getD_set_self _ _ _ _ (by rw [List.length_set]; exact hsHood)] at hm
      exact Or.inl ⟨rfl, List.mem_append.mp hm⟩
    · refine Or.inr ⟨hss, ?_⟩
      rw [getD_set_ne _ _ _ _ _ fun he => hss he.symm] at hm
      rwa [hhood1, getD_set_ne _ _ _ _ _ fun he => hss he.symm] at hm
  have comm_cases : ∀ i, i < seeds.length → ∀ c : Int,
      c ∈ (s.committed.set si
        (s.committed.getD si [] ++ [best.index])).getD i [] →
      (i = si ∧ (c ∈ s.committed.getD si [] ∨ c = best.index)) ∨
      (i ≠ si ∧ c ∈ s.committed.getD i []) := by
    intro i hi c hc
    by_cases hss : i = si
    · subst hss
      rw [getD_set_self _ _ _ _ hsComm] at hc
      rcases List.mem_append.mp hc with h | h
      · exact Or.inl ⟨rfl, Or.inl h⟩
      · exact Or.inl ⟨rfl, Or.inr (by simpa using h)⟩
    · refine Or.inr ⟨hss, ?_⟩
      rwa [getD_set_ne _ _ _ _ _ fun he => hss he.symm] at hc
  constructor
  -- hoodLen
  · simp [hhood1, List.length_set, inv.hoodLen]
  -- commLen
  · simp [List.length_set, inv.commLen]
  -- propsEq
  · intro sj hsj n hm
    rcases hood_cases sj hsj n hm with ⟨hss, hc⟩ | ⟨hss, hm2⟩
    · subst hss
      rcases hc with h | h
      · exact inv.propsEq sj hsj n (hrestsub n h)
      · rw [(mem_newNeighborsOf h).1, hbprops]
    · exact inv.propsEq sj hsj n hm2
  -- commNZ
  · intro i hi c hc pv hpv
    rcases comm_cases i hi c hc with ⟨hss, hcc⟩ | ⟨hss, hold⟩
    · subst hss
      rcases hcc with hold | hbe
      · exact commitProps_nonzero_preserve _ _ _ _ _ hbvals
          (inv.commNZ i hi c hold pv hpv)
      · subst hbe
        have hpv2 : pv ∈ best.props := by
          rw [hbprops]
          exact hpv
        exact commitProps_key_nonzero best.props s.estimate best.index pv hpv2
          hbvals
    · exact commitProps_nonzero_preserve _ _ _ _ _ hbvals
        (inv.commNZ i hi c hold pv hpv)
  -- hoodDisj
  · intro si' sj' hsi' hsj' hne n hn m hm
    rcases hood_cases si' hsi' n hn with ⟨h1, hc1⟩ | ⟨h1, hn2⟩
    · subst h1
      rcases hood_cases sj' hsj' m hm with ⟨h2, hc2⟩ | ⟨h2, hm2⟩
      · exact absurd h2.symm hne
      · rcases hc1 with hr | hw
        · exact inv.hoodDisj _ _ hsi' hsj' hne n (hrestsub n hr) m hm2
        · intro hcon
          exact (mem_newNeighborsOf hw).2.2.2 _
            (hood1_mem_lists sj' hsj' fun he => hne he.symm) m hm2 hcon
    · rcases hood_cases sj' hsj' m hm with ⟨h2, hc2⟩ | ⟨h2, hm2⟩
      · subst h2
        rcases hc2 with hr | hw
        · exact inv.hoodDisj _ _ hsi' hsj' hne n hn2 m (hrestsub m hr)
        · intro hcon
          exact (mem_newNeighborsOf hw).2.2.2 _
            (hood1_mem_lists si' hsi' h1) n hn2
            ⟨hcon.1.symm, sharesKey_comm _ _ hcon.2⟩
      · exact inv.hoodDisj _ _ hsi' hsj' hne n hn2 m hm2
  -- hoodComm
  · intro sj hsj n hn i hi hine hcon
    obtain ⟨hcidx, hcsh⟩ := hcon
    rcases comm_cases i hi n.index hcidx with ⟨hii, hcc⟩ | ⟨hii, hold⟩
    · subst hii
      rcases hood_cases sj hsj n hn with ⟨hjj, hc1⟩ | ⟨hjj, hn2⟩
      · exact hine hjj.symm
      · rcases hcc with hold | hbe
        · exact inv.hoodComm sj hsj n hn2 i hi hine ⟨hold, hcsh⟩
        · refine inv.hoodDisj sj i hsj hi hjj n hn2 best hbm ⟨hbe, ?_⟩
          rw [hbprops]
          exact hcsh
    · rcases hood_cases sj hsj n hn with ⟨hjj, hc1⟩ | ⟨hjj, hn2⟩
      · subst hjj
        rcases hc1 with hr | hw
        · exact inv.hoodComm _ hsj n (hrestsub n hr) i hi hine ⟨hold, hcsh⟩
        · obtain ⟨a, ha, b, hb, hab⟩ := sharesKey_exists _ _ hcsh
          have hzero : e2 a.1 n.index = 0 := (mem_newNeighborsOf hw).2.2.1 a ha
          have hnz : e2 b.1 n.index ≠ 0 :=
            commitProps_nonzero_preserve _ _ _ _ _ hbvals
              (inv.commNZ i hi n.index hold b hb)
          rw [hab] at hzero
          exact hnz hzero
      · exact inv.hoodComm sj hsj n hn2 i hi hine ⟨hold, hcsh⟩
  -- claims
  · intro i k hi hk hik c hc1 hc2
    rcases comm_cases i hi c hc1 with ⟨hii, hcc1⟩ | ⟨hii, hold1⟩
    · rcases comm_cases k hk c hc2 with ⟨hkk, hcc2⟩ | ⟨hkk, hold2⟩
      · exact absurd (hii.trans hkk.symm) hik
      · subst hii
        rcases hcc1 with hold1 | hbe
        · exact inv.claims _ _ hi hk hik c hold1 hold2
        · subst hbe
          by_contra hsh
          rw [Bool.not_eq_false] at hsh
          refine inv.hoodComm i hi best hbm k hk (fun he => hik he.symm)
            ⟨hold2, ?_⟩
          rw [hbprops]
          exact hsh
    · rcases comm_cases k hk c hc2 with ⟨hkk, hcc2⟩ | ⟨hkk, hold2⟩
      · subst hkk
        rcases hcc2 with hold2 | hbe
        · exact inv.claims _ _ hi hk hik c hold1 hold2
        · subst hbe
          by_contra hsh
          rw [Bool.not_eq_false] at hsh
          refine inv.hoodComm k hk best hbm i hi hik ⟨hold1, ?_⟩
          rw [hbprops]
          exact sharesKey_comm _ _ hsh
      · exact inv.claims _ _ hi hk hik c hold1 hold2

/-- Any seed turn preserves the C2 invariant. -/
theorem seedTurn_inv (jury : Jury) (mesh : Mesh) (seeds : List Neighbor)
    (nseeds iteration si : ℕ) (hsi : si < seeds.length) (seed : Neighbor)
    (s : GrowState) (hok : SeedsOK seeds) (inv : GrowInv seeds s) :
    GrowInv seeds (seedTurn jury mesh nseeds iteration si seed s).1 := by
  rcases seedTurn_cases jury mesh nseeds iteration si seed s with h | ⟨j, hj, g, h⟩
  · rw [h]
    exact inv
  · rw [h]
    exact commitState_inv mesh seeds si hsi s j g hj hok inv

/-- `getD` on the left part of an append. -/
theorem getD_append_left {α : Type} (l l2 : List α) (i : ℕ) (d : α)
    (h : i < l.length) : (l ++ l2).getD i d = l.getD i d := by
  induction l generalizing i with
  | nil => simp at h
  | cons x xs ih =>
    cases i with
    | zero => simp
    | succ i => simpa using ih i (by simpa using h)

/-- `getD` at the junction of an append. -/
theorem getD_append_length {α : Type} (l : List α) (x : α) (l2 : List α)
    (d : α) : (l ++ x :: l2).getD l.length d = x := by
  induction l with
  | nil => simp
  | cons y ys ih => simpa using ih

/-- The estimate built by folding `commitProps` over the seeds keeps
non-zero points non-zero. -/
theorem foldl_commitProps_preserve : ∀ (ss : List Neighbor) (e : Estimate)
    (q : String) (c : Int), (∀ a ∈ ss, ∀ pv ∈ a.props, pv.2 ≠ 0) →
    e q c ≠ 0 →
    (ss.foldl (fun acc s => commitProps acc s.index s.props) e) q c ≠ 0 := by
  intro ss
  induction ss with
  | nil =>
    intro e q c _ he
    exact he
  | cons a rest ih =>
    intro e q c hv he
    rw [List.foldl_cons]
    exact ih (commitProps e a.index a.props) q c
      (fun x hx pv hpv => hv x (by simp [hx]) pv hpv)
      (commitProps_nonzero_preserve _ _ _ _ _
        (fun pv hpv => hv a (by simp) pv hpv) he)

/-- After folding `commitProps` over the seeds, every seed is marked
non-zero at all its property names. -/
theorem foldl_commitProps_member : ∀ (ss : List Neighbor) (e : Estimate)
    (a : Neighbor), a ∈ ss → (∀ x ∈ ss, ∀ pv ∈ x.props, pv.2 ≠ 0) →
    ∀ pv ∈ a.props,
    (ss.foldl (fun acc s => commitProps acc s.index s.props) e) pv.1 a.index
      ≠ 0 := by
  intro ss
  induction ss with
  | nil =>
    intro e a ha
    simp at ha
  | cons x rest ih =>
    intro e a ha hv pv hpv
    rw [List.foldl_cons]
    rcases List.mem_cons.mp ha with he | hm
    · subst he
      exact foldl_commitProps_preserve rest _ _ _
        (fun y hy qv hqv => hv y (by simp [hy]) qv hqv)
        (commitProps_key_nonzero a.props e a.index pv hpv
          fun qv hqv => hv a (by simp) qv hqv)
    · exact ih (commitProps e x.index x.props) a hm
        (fun y hy qv hqv => hv y (by simp [hy]) qv hqv) pv hpv

/-- Invariant of the frontier-initialization loop of `grow`: each built
frontier copies its seed's props, is free in the (fixed) initial estimate,
and no two frontiers conflict. -/
theorem initHood_spec : ∀ (ss : List Neighbor) (mesh : Mesh) (e : Estimate)
    (hood : List (List Neighbor)) (done : List Neighbor),
    hood.length = done.length →
    (∀ si, si < hood.length → ∀ n ∈ hood.getD si [],
      n.props = (done.getD si default).props ∧
      ∀ pv ∈ n.props, e pv.1 n.index = 0) →
    (∀ si sj, si < hood.length → sj < hood.length → si ≠ sj →
      ∀ n ∈ hood.getD si [], ∀ m ∈ hood.getD sj [],
      ¬(n.index = m.index ∧ sharesKey n.props m.props = true)) →
    (initHood mesh e hood ss).length = done.length + ss.length ∧
    (∀ si, si < (initHood mesh e hood ss).length →
      ∀ n ∈ (initHood mesh e hood ss).getD si [],
      n.props = ((done ++ ss).getD si default).props ∧
      ∀ pv ∈ n.props, e pv.1 n.index = 0) ∧
    (∀ si sj, si < (initHood mesh e hood ss).length →
      sj < (initHood mesh e hood ss).length → si ≠ sj →
      ∀ n ∈ (initHood mesh e hood ss).getD si [],
      ∀ m ∈ (initHood mesh e hood ss).getD sj [],
      ¬(n.index = m.index ∧ sharesKey n.props m.props = true)) := by
  intro ss
  induction ss with
  | nil =>
    intro mesh e hood done hlen hprops hdisj
    refine ⟨by simpa using hlen, ?_, ?_⟩
    · intro si hsi n hn
      have h := hprops si hsi n hn
      simpa using h
    · exact hdisj
  | cons seed rest ih =>
    intro mesh e hood done hlen hprops hdisj
    have hstep : initHood mesh e hood (seed :: rest) =
        initHood mesh e (hood ++ [newNeighborsOf mesh e hood seed]) rest := rfl
    rw [hstep]
    have hnew_cases : ∀ si, si < (hood ++ [newNeighborsOf mesh e hood seed]).length →
        ∀ n ∈ (hood ++ [newNeighborsOf mesh e hood seed]).getD si [],
        (si < hood.length ∧ n ∈ hood.getD si []) ∨
        (si = hood.length ∧ n ∈ newNeighborsOf mesh e hood seed) := by
      intro si hsi n hn
      by_cases hlt : si < hood.length
      · rw [getD_append_left _ _ _ _ hlt] at hn
        exact Or.inl ⟨hlt, hn⟩
      · have hsieq : si = hood.length := by
          simp only [List.length_append, List.length_cons, List.length_nil] at hsi
          omega
        subst hsieq
        rw [getD_append_length] at hn
        exact Or.inr ⟨rfl, hn⟩
    have h1 : (hood ++ [newNeighborsOf mesh e hood seed]).length =
        (done ++ [seed]).length := by
      simp [hlen]
    have h2 : ∀ si, si < (hood ++ [newNeighborsOf mesh e hood seed]).length →
        ∀ n ∈ (hood ++ [newNeighborsOf mesh e hood seed]).getD si [],
        n.props = ((done ++ [seed]).getD si default).props ∧
        ∀ pv ∈ n.props, e pv.1 n.index = 0 := by
      intro si hsi n hn
      rcases hnew_cases si hsi n hn with ⟨hlt, hn2⟩ | ⟨hsieq, hn2⟩
      · have h := hprops si hlt n hn2
        rw [getD_append_left _ _ _ _ (by rw [← hlen]; exact hlt)]
        exact h
      · subst hsieq
        rw [hlen, getD_append_length]
        obtain ⟨hp, _, hfree, _⟩ := mem_newNeighborsOf hn2
        exact ⟨hp, hfree⟩
    have h3 : ∀ si sj, si < (hood ++ [newNeighborsOf mesh e hood seed]).length →
        sj < (hood ++ [newNeighborsOf mesh e hood seed]).length → si ≠ sj →
        ∀ n ∈ (hood ++ [newNeighborsOf mesh e hood seed]).getD si [],
        ∀ m ∈ (hood ++ [newNeighborsOf mesh e hood seed]).getD sj [],
        ¬(n.index = m.index ∧ sharesKey n.props m.props = true) := by
      intro si sj hsi hsj hne n hn m hm
      rcases hnew_cases si hsi n hn with ⟨hlt1, hn2⟩ | ⟨hsieq1, hn2⟩
      · rcases hnew_cases sj hsj m hm with ⟨hlt2, hm2⟩ | ⟨hsjeq2, hm2⟩
        · exact hdisj si sj hlt1 hlt2 hne n hn2 m hm2
        · intro hcon
          exact (mem_newNeighborsOf hm2).2.2.2 _
            (getD_mem_of_lt hood si [] hlt1) n hn2
            ⟨hcon.1.symm, sharesKey_comm _ _ hcon.2⟩
      · rcases hnew_cases sj hsj m hm with ⟨hlt2, hm2⟩ | ⟨hsjeq2, hm2⟩
        · intro hcon
          exact (mem_newNeighborsOf hn2).2.2.2 _
            (getD_mem_of_lt hood sj [] hlt2) m hm2 hcon
        · exact absurd (hsieq1.trans hsjeq2.symm) hne
    obtain ⟨ih1, ih2, ih3⟩ := ih mesh e
      (hood ++ [newNeighborsOf mesh e hood seed]) (done ++ [seed]) h1 h2 h3
    refine ⟨?_, ?_, ih3⟩
    · rw [ih1]
      simp
      omega
    · intro si hsi n hn
      have h := ih2 si hsi n hn
      rwa [List.append_assoc, List.singleton_append] at h

/-- `getD` at an in-range index is `getElem`. -/
theorem getD_eq_getElem {α : Type} (l : List α) (i : ℕ) (d : α)
    (h : i < l.length) : l.getD i d = l[i] := by
  induction l generalizing i with
  | nil => simp at h
  | cons x xs ih =>
    cases i with
    | zero => simp
    | succ i => simpa using ih i (by simpa using h)

/-- Initialization of `grow` establishes the C2 invariant. -/
theorem growInit_inv (seeds : List Neighbor) (mesh : Mesh) (goal0 : ℚ)
    (hok : SeedsOK seeds) : GrowInv seeds (growInit seeds mesh goal0) := by
  obtain ⟨hlen, hpf, hdisj⟩ := initHood_spec seeds mesh
    (seeds.foldl (fun acc s => commitProps acc s.index s.props) fun _ _ => 0)
    [] []
    rfl
    (by intro si hsi; simp at hsi)
    (by intro si sj hsi; simp at hsi)
  simp only [List.nil_append, List.length_nil, Nat.zero_add] at hlen hpf hdisj
  constructor
  · exact hlen
  · simp [growInit]
  · intro si hsi n hn
    exact (hpf si (by rw [hlen]; exact hsi) n hn).1
  · intro i hi c hc pv hpv
    have hcomm : (growInit seeds mesh goal0).committed.getD i [] =
        [(seeds.getD i default).index] := by
      show (seeds.map fun s => [s.index]).getD i [] = _
      rw [getD_map_lt (fun s : Neighbor => [s.index]) seeds i hi [] default]
    rw [hcomm] at hc
    simp only [List.mem_singleton] at hc
    subst hc
    exact foldl_commitProps_member seeds _ _ (getD_mem_of_lt seeds i default hi)
      hok.2 pv hpv
  · intro si sj hsi hsj hne n hn m hm
    exact hdisj si sj (by rw [hlen]; exact hsi) (by rw [hlen]; exact hsj) hne
      n hn m hm
  · intro sj hsj n hn i hi hine hcon
    obtain ⟨hcidx, hcsh⟩ := hcon
    have hcomm : (growInit seeds mesh goal0).committed.getD i [] =
        [(seeds.getD i default).index] := by
      show (seeds.map fun s => [s.index]).getD i [] = _
      rw [getD_map_lt (fun s : Neighbor => [s.index]) seeds i hi [] default]
    rw [hcomm] at hcidx
    simp only [List.mem_singleton] at hcidx
    obtain ⟨a, ha, b, hb, hab⟩ := sharesKey_exists _ _ hcsh
    have hfree := (hpf sj (by rw [hlen]; exact hsj) n hn).2 a ha
    have hnz := foldl_commitProps_member seeds
      (fun _ _ => 0) _ (getD_mem_of_lt seeds i default hi) hok.2 b hb
    rw [hcidx, hab] at hfree
    exact hnz hfree
  · intro i j hi hj hij c hc1 hc2
    have hcm : ∀ k, k < seeds.length →
        (growInit seeds mesh goal0).committed.getD k [] =
        [(seeds.getD k default).index] := by
      intro k hk
      show (seeds.map fun s => [s.index]).getD k [] = _
      rw [getD_map_lt (fun s : Neighbor => [s.index]) seeds k hk [] default]
    rw [hcm i hi] at hc1
    rw [hcm j hj] at hc2
    simp only [List.mem_singleton] at hc1 hc2
    by_contra hsh
    rw [Bool.not_eq_false] at hsh
    have hidx : (seeds.getD i default).index = (seeds.getD j default).index := by
      rw [← hc1, ← hc2]
    rcases Nat.lt_or_ge i j with hij2 | hge
    · have hpair := List.pairwise_iff_getElem.mp hok.1 i j hi hj hij2
      refine hpair ⟨?_, ?_⟩
      · rw [← getD_eq_getElem seeds i default hi,
            ← getD_eq_getElem seeds j default hj]
        exact hidx
      · rw [← getD_eq_getElem seeds i default hi,
            ← getD_eq_getElem seeds j default hj]
        exact hsh
    · have hji : j < i := by omega
      have hpair := List.pairwise_iff_getElem.mp hok.1 j i hj hi hji
      refine hpair ⟨?_, ?_⟩
      · rw [← getD_eq_getElem seeds j default hj,
            ← getD_eq_getElem seeds i default hi]
        exact hidx.symm
      · rw [← getD_eq_getElem seeds j default hj,
            ← getD_eq_getElem seeds i default hi]
        exact sharesKey_comm _ _ hsh

/-- Every reachable state of the grow loop satisfies the C2 invariant. -/
theorem reachable_inv (jury : Jury) (seeds : List Neighbor) (mesh : Mesh)
    (goal0 : ℚ) (s : GrowState) (hr : Reachable jury seeds mesh goal0 s)
    (hok : SeedsOK seeds) : GrowInv seeds s := by
  induction hr with
  | init => exact growInit_inv seeds mesh goal0 hok
  | step iteration si hsi hr ih =>
    exact seedTurn_inv jury mesh seeds seeds.length iteration si hsi
      (seeds.getD si default) _ hok ih

/-- Claim C2: at every reachable state of the growth loop (for well-formed
seed lists with non-zero property values), at most one seed's committed set
assigns a value to any given (cell, property) pair. -/
theorem c2_at_most_one_claim (jury : Jury) (seeds : List Neighbor)
    (mesh : Mesh) (goal0 : ℚ) (s : GrowState)
    (hr : Reachable jury seeds mesh goal0 s) (hok : SeedsOK seeds) :
    ∀ i j, i < seeds.length → j < seeds.length → i ≠ j →
      ∀ c : Int, ∀ p : String,
      c ∈ s.committed.getD i [] → c ∈ s.committed.getD j [] →
      ¬(hasKey (seeds.getD i default).props p = true ∧
        hasKey (seeds.getD j default).props p = true) := by
  intro i j hi hj hij c p hc1 hc2 hcon
  have hclaims := (reachable_inv jury seeds mesh goal0 s hr hok).claims i j hi
    hj hij c hc1 hc2
  have hsh : sharesKey (seeds.getD i default).props
      (seeds.getD j default).props = true := by
    obtain ⟨h1, h2⟩ := hcon
    unfold hasKey at h1 h2
    rw [List.any_eq_true] at h1 h2
    obtain ⟨a, ha, hae⟩ := h1
    obtain ⟨b, hb, hbe⟩ := h2
    unfold sharesKey
    rw [List.any_eq_true]
    refine ⟨a, ha, ?_⟩
    rw [List.any_eq_true]
    refine ⟨b, hb, ?_⟩
    rw [beq_iff_eq] at hae hbe ⊢
    rw [hae, hbe]
  rw [hclaims] at hsh
  exact Bool.false_ne_true hsh

/-- Witness for C2 at the initial state of a concrete two-seed run. -/
theorem c2_witness :
    SeedsOK cseedsW ∧
    (∀ i j, i < cseedsW.length → j < cseedsW.length → i ≠ j →
      ∀ c : Int, ∀ p : String,
      c ∈ (growInit cseedsW mesh13 0).committed.getD i [] →
      c ∈ (growInit cseedsW mesh13 0).committed.getD j [] →
      ¬(hasKey (cseedsW.getD i default).props p = true ∧
        hasKey (cseedsW.getD j default).props p = true)) := by
  have hok : SeedsOK cseedsW := by
    constructor
    · decide
    · decide
  exact ⟨hok,
    c2_at_most_one_claim cjuryNone cseedsW mesh13 0 _ Reachable.init hok⟩

/-- Value and guard of a produced `above` candidate. -/
theorem aboveOf_eq {n nx ny : Int} {up : Bool} {x : Int}
    (h : aboveOf n nx ny up = some x) : x = n - nx * ny ∧ 0 < n - nx * ny := by
  unfold aboveOf at h
  split_ifs at h with hc
  simp only [Option.some.injEq] at h
  exact ⟨h.symm, hc.2⟩

/-- Value of a produced `bellow` candidate. -/
theorem bellowOf_eq {n nx ny sz : Int} {down : Bool} {x : Int}
    (h : bellowOf n nx ny sz down = some x) : x = n + nx * ny := by
  unfold bellowOf at h
  split_ifs at h with hc
  simp only [Option.some.injEq] at h
  exact h.symm

/-- Value and guard of a produced `front` candidate. -/
theorem frontOf_eq {n nx : Int} {x : Int} (h : frontOf n nx = some x) :
    x = n + 1 ∧ n % nx < nx - 1 := by
  unfold frontOf at h
  split_ifs at h with hc
  simp only [Option.some.injEq] at h
  exact ⟨h.symm, hc⟩

/-- Value and guard of a produced `back` candidate. -/
theorem backOf_eq {n nx : Int} {x : Int} (h : backOf n nx = some x) :
    x = n - 1 ∧ n % nx ≠ 0 := by
  unfold backOf at h
  split_ifs at h with hc
  simp only [Option.some.injEq] at h
  exact ⟨h.symm, hc⟩

/-- Value and guard of a produced `left` candidate. -/
theorem leftOf_eq {n nx ny : Int} {x : Int} (h : leftOf n nx ny = some x) :
    x = n + nx ∧ n % (nx * ny) < nx * (ny - 1) := by
  unfold leftOf at h
  split_ifs at h with hc
  simp only [Option.some.injEq] at h
  exact ⟨h.symm, hc⟩

/-- Value and guard of a produced `right` candidate. -/
theorem rightOf_eq {n nx ny : Int} {x : Int} (h : rightOf n nx ny = some x) :
    x = n - nx ∧ nx ≤ n % (nx * ny) := by
  unfold rightOf at h
  split_ifs at h with hc
  simp only [Option.some.injEq] at h
  exact ⟨h.symm, hc⟩

/-- On a grid with positive x and y dimensions the six face-neighbor
candidates of `find_neighbors` are pairwise distinct. -/
theorem face_candidates_pairwise (n nx ny sz : Int) (up down : Bool)
    (hnx : 1 ≤ nx) (hny : 1 ≤ ny) :
    List.Pairwise (fun a b => a ≠ b)
      (List.filterMap id
        [aboveOf n nx ny up, bellowOf n nx ny sz down, frontOf n nx,
         backOf n nx, leftOf n nx ny, rightOf n nx ny]) := by
  have hq1 : 1 ≤ nx * ny := by nlinarith
  have hq2 : nx ≤ nx * ny := by nlinarith
  have hql : nx * (ny - 1) = nx * ny - nx := by ring
  have hr1a : 0 ≤ n % nx := Int.emod_nonneg _ (by omega)
  have hr1b : n % nx < nx := Int.emod_lt_of_pos _ (by omega)
  have hr2a : 0 ≤ n % (nx * ny) := Int.emod_nonneg _ (by omega)
  have hr2b : n % (nx * ny) < nx * ny := Int.emod_lt_of_pos _ (by omega)
  rw [List.pairwise_filterMap]
  simp only [List.pairwise_cons, List.mem_cons,
    List.not_mem_nil, Option.mem_def, id]
  refine ⟨?_, ?_, ?_, ?_, ?_, ?_⟩
  · intro o ho x hx y hy
    obtain ⟨hx1, hx2⟩ := aboveOf_eq hx
    rcases ho with h | h | h | h | h | h
    · subst h
      have hy1 := bellowOf_eq hy
      intro he
      linarith
    · subst h
      obtain ⟨hy1, hy2⟩ := frontOf_eq hy
      intro he
      linarith
    · subst h
      obtain ⟨hy1, hy2⟩ := backOf_eq hy
      have hpos : 0 < n % nx := lt_of_le_of_ne hr1a (Ne.symm hy2)
      intro he
      linarith
    · subst h
      obtain ⟨hy1, hy2⟩ := leftOf_eq hy
      intro he
      linarith
    · subst h
      obtain ⟨hy1, hy2⟩ := rightOf_eq hy
      intro he
      linarith
    · exact h.elim
  · intro o ho x hx y hy
    have hx1 := bellowOf_eq hx
    rcases ho with h | h | h | h | h
    · subst h
      obtain ⟨hy1, hy2⟩ := frontOf_eq hy
      intro he
      linarith
    · subst h
      obtain ⟨hy1, hy2⟩ := backOf_eq hy
      intro he
      linarith
    · subst h
      obtain ⟨hy1, hy2⟩ := leftOf_eq hy
      rw [hql] at hy2
      intro he
      linarith
    · subst h
      obtain ⟨hy1, hy2⟩ := rightOf_eq hy
      intro he
      linarith
    · exact h.elim
  · intro o ho x hx y hy
    obtain ⟨hx1, hx2⟩ := frontOf_eq hx
    rcases ho with h | h | h | h
    · subst h
      obtain ⟨hy1, hy2⟩ := backOf_eq hy
      intro he
      linarith
    · subst h
      obtain ⟨hy1, hy2⟩ := leftOf_eq hy
      intro he
      linarith
    · subst h
      obtain ⟨hy1, hy2⟩ := rightOf_eq hy
      intro he
      linarith
    · exact h.elim
  · intro o ho x hx y hy
    obtain ⟨hx1, hx2⟩ := backOf_eq hx
    have hpos : 0 < n % nx := lt_of_le_of_ne hr1a (Ne.symm hx2)
    rcases ho with h | h | h
    · subst h
      obtain ⟨hy1, hy2⟩ := leftOf_eq hy
      intro he
      linarith
    · subst h
      obtain ⟨hy1, hy2⟩ := rightOf_eq hy
      intro he
      linarith
    · exact h.elim
  · intro o ho x hx y hy
    obtain ⟨hx1, hx2⟩ := leftOf_eq hx
    rcases ho with h | h
    · subst h
      obtain ⟨hy1, hy2⟩ := rightOf_eq hy
      intro he
      linarith
    · exact h.elim
  · exact ⟨fun a h => h.elim, List.Pairwise.nil⟩

/-- In face-only mode `find_neighbors` reduces to the six filtered face
candidates. -/
theorem findNeighbors_face_eq (nb : Neighbor) (mesh : Mesh) (up down : Bool) :
    findNeighbors nb mesh false up down =
      ((List.filterMap id
        [aboveOf nb.index (mesh.nx : Int) (mesh.ny : Int) up,
         bellowOf nb.index (mesh.nx : Int) (mesh.ny : Int) (mesh.size : Int)
           down,
         frontOf nb.index (mesh.nx : Int),
         backOf nb.index (mesh.nx : Int),
         leftOf nb.index (mesh.nx : Int) (mesh.ny : Int),
         rightOf nb.index (mesh.nx : Int) (mesh.ny : Int)]).filter
        fun i => (mesh.cellAt i).isSome).map
      fun i => Neighbor.mk i nb.props [] := rfl

/-- In face-only mode the returned neighbors carry pairwise distinct cell
indices when both horizontal grid dimensions are positive. -/
theorem findNeighbors_face_pairwise (nb : Neighbor) (mesh : Mesh)
    (up down : Bool) (hnx : 1 ≤ mesh.nx) (hny : 1 ≤ mesh.ny) :
    List.Pairwise (fun a b => a.index ≠ b.index)
      (findNeighbors nb mesh false up down) := by
  have hnx2 : (1 : Int) ≤ (mesh.nx : Int) := by exact_mod_cast hnx
  have hny2 : (1 : Int) ≤ (mesh.ny : Int) := by exact_mod_cast hny
  rw [findNeighbors_face_eq, List.pairwise_map]
  exact ((face_candidates_pairwise nb.index _ _ _ up down hnx2 hny2).filter
    _).imp fun hne hidx => hne hidx

/-- The frontier extension of `grow` has pairwise distinct cell indices. -/
theorem newNeighborsOf_pairwise (mesh : Mesh) (e : Estimate)
    (hood : List (List Neighbor)) (cell : Neighbor)
    (hnx : 1 ≤ mesh.nx) (hny : 1 ≤ mesh.ny) :
    List.Pairwise (fun a b => a.index ≠ b.index)
      (newNeighborsOf mesh e hood cell) := by
  unfold newNeighborsOf not_neighbors free_neighbors
  rw [List.pairwise_map]
  exact (((findNeighbors_face_pairwise cell mesh true true hnx
    hny).filter _).filter _).imp fun hne hidx => hne hidx

/-- The element removed by `eraseIdx` is related to every remaining element
when the list is pairwise related by a symmetric relation. -/
theorem pairwise_getD_eraseIdx {α : Type} (R : α → α → Prop)
    (hsym : ∀ a b, R a b → R b a) :
    ∀ (l : List α) (j : ℕ), j < l.length → ∀ (d : α), l.Pairwise R →
    ∀ m ∈ l.eraseIdx j, R (l.getD j d) m := by
  intro l
  induction l with
  | nil =>
    intro j hj
    simp at hj
  | cons x xs ih =>
    intro j hj d hp m hm
    cases j with
    | zero =>
      rw [List.eraseIdx_cons_zero] at hm
      exact (List.pairwise_cons.mp hp).1 m hm
    | succ j =>
      rw [List.eraseIdx_cons_succ] at hm
      rcases List.mem_cons.mp hm with he | hm2
      · subst he
        exact hsym _ _ ((List.pairwise_cons.mp hp).1 _
          (getD_mem_of_lt xs j d (by simpa using hj)))
      · exact ih j (by simpa using hj) d (List.pairwise_cons.mp hp).2 m hm2

/-- Every per-seed list built by the frontier-initialization loop is either
one of the starting lists or a frontier extension. -/
theorem initHood_lists : ∀ (ss : List Neighbor) (mesh : Mesh) (e : Estimate)
    (hood : List (List Neighbor)), ∀ l ∈ initHood mesh e hood ss,
    l ∈ hood ∨ ∃ h2 cell, l = newNeighborsOf mesh e h2 cell := by
  intro ss
  induction ss with
  | nil =>
    intro mesh e hood l hl
    exact Or.inl hl
  | cons seed rest ih =>
    intro mesh e hood l hl
    have hstep : initHood mesh e hood (seed :: rest) =
        initHood mesh e (hood ++ [newNeighborsOf mesh e hood seed]) rest := rfl
    rw [hstep] at hl
    rcases ih mesh e _ l hl with hin | hex
    · rcases List.mem_append.mp hin with h | h
      · exact Or.inl h
      · rw [List.mem_singleton] at h
        exact Or.inr ⟨hood, seed, h⟩
    · exact Or.inr hex

/-- Replacing one inner list changes the total of the lengths by the
difference of the two lengths. -/
theorem sum_map_length_set : ∀ (l : List (List Int)) (si : ℕ)
    (x : List Int), si < l.length →
    ((l.set si x).map List.length).sum + (l.getD si []).length =
      (l.map List.length).sum + x.length := by
  intro l
  induction l with
  | nil =>
    intro si x h
    simp at h
  | cons y ys ih =>
    intro si x h
    cases si with
    | zero =>
      have h1 : (y :: ys).set 0 x = x :: ys := rfl
      have h2 : (y :: ys).getD 0 [] = y := rfl
      rw [h1, h2]
      simp only [List.map_cons, List.sum_cons]
      omega
    | succ si =>
      have h1 : (y :: ys).set (si + 1) x = y :: ys.set si x := rfl
      have h2 : (y :: ys).getD (si + 1) [] = ys.getD si [] := rfl
      rw [h1, h2]
      simp only [List.map_cons, List.sum_cons]
      have := ih si x (by simpa using h)
      omega

/-- The commit branch of a seed turn preserves the C4 invariant when all
seeds carry the same non-empty property set. -/
theorem commitState_inv4 (mesh : Mesh) (seeds : List Neighbor)
    (ks : List String) (si : ℕ) (hsi : si < seeds.length) (s : GrowState)
    (j : ℕ) (g : ℚ) (hlt : j < (s.neighborhood.getD si []).length)
    (hok : SeedsOK seeds) (hsame : SameProps seeds ks)
    (hnx : 1 ≤ mesh.nx) (hny : 1 ≤ mesh.ny) (inv : GrowInv4 seeds mesh s) :
    GrowInv4 seeds mesh (commitState mesh si s j g) := by
  have hbase := commitState_inv mesh seeds si hsi s j g hlt hok inv.base
  have hsHood : si < s.neighborhood.length := by
    rw [inv.base.hoodLen]
    exact hsi
  have hsComm : si < s.committed.length := by
    rw [inv.base.commLen]
    exact hsi
  set nbs := s.neighborhood.getD si [] with hnbs
  set best := nbs.getD j default with hbestdef
  have hbm : best ∈ nbs := getD_mem_of_lt nbs j default hlt
  have hbprops : best.props = (seeds.getD si default).props :=
    inv.base.propsEq si hsi best hbm
  have hseedmem : seeds.getD si default ∈ seeds :=
    getD_mem_of_lt seeds si default hsi
  have hbvals : ∀ pv ∈ best.props, pv.2 ≠ 0 := by
    rw [hbprops]
    exact fun pv hpv => hok.2 _ hseedmem pv hpv
  set e2 := commitProps s.estimate best.index best.props with he2
  set rest := nbs.eraseIdx j with hrest
  have hrestsub : ∀ m ∈ rest, m ∈ nbs := by
    intro m hm
    exact (List.eraseIdx_sublist nbs j).subset hm
  set hood1 := s.neighborhood.set si rest with hhood1
  set newns := newNeighborsOf mesh e2 hood1 best with hnewns
  have hood1_mem_rest : rest ∈ hood1 := by
    have heq : hood1.getD si [] = rest := getD_set_self _ _ _ _ hsHood
    rw [← heq]
    refine getD_mem_of_lt hood1 si [] ?_
    rw [hhood1, List.length_set]
    exact hsHood
  have hood_getD_si : (hood1.set si (rest ++ newns)).getD si [] =
      rest ++ newns := by
    refine getD_set_self _ _ _ _ ?_
    rw [hhood1, List.length_set]
    exact hsHood
  have hood_cases : ∀ sj, sj < seeds.length → ∀ m : Neighbor,
      m ∈ (hood1.set si (rest ++ newns)).getD sj [] →
      (sj = si ∧ (m ∈ rest ∨ m ∈ newns)) ∨
      (sj ≠ si ∧ m ∈ s.neighborhood.getD sj []) := by
    intro sj hsj m hm
    by_cases hss : sj = si
    · subst hss
      rw [hood_getD_si] at hm
      exact Or.inl ⟨rfl, List.mem_append.mp hm⟩
    · refine Or.inr ⟨hss, ?_⟩
      rw [getD_set_ne _ _ _ _ _ fun he => hss he.symm] at hm
      rwa [hhood1, getD_set_ne _ _ _ _ _ fun he => hss he.symm] at hm
  have comm_getD_si : (s.committed.set si
      (s.committed.getD si [] ++ [best.index])).getD si [] =
      s.committed.getD si [] ++ [best.index] :=
    getD_set_self _ _ _ _ hsComm
  have comm_getD_ne : ∀ i2, i2 ≠ si → (s.committed.set si
      (s.committed.getD si [] ++ [best.index])).getD i2 [] =
      s.committed.getD i2 [] := by
    intro i2 hne
    exact getD_set_ne _ _ _ _ _ fun he => hne he.symm
  have comm_cases : ∀ i, i < seeds.length → ∀ c : Int,
      c ∈ (s.committed.set si
        (s.committed.getD si [] ++ [best.index])).getD i [] →
      (i = si ∧ (c ∈ s.committed.getD si [] ∨ c = best.index)) ∨
      (i ≠ si ∧ c ∈ s.committed.getD i []) := by
    intro i hi c hc
    by_cases hss : i = si
    · subst hss
      rw [comm_getD_si] at hc
      rcases List.mem_append.mp hc with h | h
      · exact Or.inl ⟨rfl, Or.inl h⟩
      · exact Or.inl ⟨rfl, Or.inr (by simpa using h)⟩
    · refine Or.inr ⟨hss, ?_⟩
      rwa [comm_getD_ne i hss] at hc
  have hseedkeys : (seeds.getD si default).props.map Prod.fst = ks :=
    hsame.2 _ hseedmem
  have hspropsne : (seeds.getD si default).props ≠ [] := by
    intro h0
    rw [h0] at hseedkeys
    exact hsame.1 hseedkeys.symm
  have hbest_rest : ∀ m ∈ rest, best.index ≠ m.index :=
    pairwise_getD_eraseIdx (fun a b => a.index ≠ b.index)
      (fun a b h he => h he.symm) nbs j hlt default (inv.hoodNodup si hsi)
  have hfreshnew : ∀ n ∈ newns,
      n.index ∉ s.committed.getD si [] ++ [best.index] := by
    intro n hn hmem
    obtain ⟨hnp, _, hfree, _⟩ := mem_newNeighborsOf hn
    obtain ⟨pv, hpv⟩ := List.exists_mem_of_ne_nil _ hspropsne
    have hpvn : pv ∈ n.props := by
      rw [hnp, hbprops]
      exact hpv
    have hpvb : pv ∈ best.props := by
      rw [hbprops]
      exact hpv
    have hzero := hfree pv hpvn
    rcases List.mem_append.mp hmem with hold | hbe
    · have hnz := commitProps_nonzero_preserve s.estimate best.index best.props
        pv.1 n.index hbvals (inv.base.commNZ si hsi n.index hold pv hpv)
      exact hnz hzero
    · rw [List.mem_singleton] at hbe
      have hnz := commitProps_key_nonzero best.props s.estimate best.index pv
        hpvb hbvals
      rw [hbe] at hzero
      exact hnz hzero
  constructor
  -- base
  · exact hbase
  -- hoodNodup
  · intro sj hsj
    by_cases hss : sj = si
    · rw [hss]
      show ((hood1.set si (rest ++ newns)).getD si []).Pairwise
        fun a b => a.index ≠ b.index
      rw [hood_getD_si, List.pairwise_append]
      refine ⟨List.Pairwise.sublist (List.eraseIdx_sublist nbs j)
        (inv.hoodNodup si hsi),
        newNeighborsOf_pairwise mesh e2 hood1 best hnx hny, ?_⟩
      intro m hm n hn he
      refine (mem_newNeighborsOf hn).2.2.2 rest hood1_mem_rest m hm
        ⟨he.symm, ?_⟩
      have hmp : m.props = (seeds.getD si default).props :=
        inv.base.propsEq si hsi m (hrestsub m hm)
      rw [(mem_newNeighborsOf hn).1, hbprops, hmp]
      exact sharesKey_of_sameKeys _ _ ks hsame.1 hseedkeys hseedkeys
    · show ((hood1.set si (rest ++ newns)).getD sj []).Pairwise
        fun a b => a.index ≠ b.index
      rw [getD_set_ne _ _ _ _ _ fun he => hss he.symm,
        hhood1, getD_set_ne _ _ _ _ _ fun he => hss he.symm]
      exact inv.hoodNodup sj hsj
  -- hoodValid
  · intro sj hsj n hn
    rcases hood_cases sj hsj n hn with ⟨hss, hc⟩ | ⟨hss, hn2⟩
    · rcases hc with hr | hw
      · exact inv.hoodValid si hsi n (hrestsub n hr)
      · exact (mem_newNeighborsOf hw).2.1
    · exact inv.hoodValid sj hsj n hn2
  -- hoodFresh
  · intro sj hsj n hn hmem
    rcases hood_cases sj hsj n hn with ⟨hss, hc⟩ | ⟨hss, hn2⟩
    · rcases comm_cases sj hsj n.index hmem with ⟨_, hcc⟩ | ⟨hne2, _⟩
      · rcases hc with hr | hw
        · rcases hcc with hold | hbe
          · exact inv.hoodFresh si hsi n (hrestsub n hr) hold
          · exact hbest_rest n hr hbe.symm
        · refine hfreshnew n hw (List.mem_append.mpr ?_)
          rcases hcc with hold | hbe
          · exact Or.inl hold
          · exact Or.inr (by simp [hbe])
      · exact hne2 hss
    · rcases comm_cases sj hsj n.index hmem with ⟨hss2, _⟩ | ⟨_, hold⟩
      · exact hss hss2
      · exact inv.hoodFresh sj hsj n hn2 hold
  -- commValid
  · intro i hi c hc
    rcases comm_cases i hi c hc with ⟨hii, hcc⟩ | ⟨hii, hold⟩
    · rcases hcc with hold | hbe
      · exact inv.commValid si hsi c hold
      · rw [hbe]
        exact inv.hoodValid si hsi best hbm
    · exact inv.commValid i hi c hold
  -- commNodup
  · intro i hi
    by_cases hii : i = si
    · rw [hii]
      show ((s.committed.set si
        (s.committed.getD si [] ++ [best.index])).getD si []).Nodup
      rw [comm_getD_si, List.nodup_append]
      refine ⟨inv.commNodup si hsi, List.nodup_singleton _, ?_⟩
      intro a ha hb
      rw [List.mem_singleton] at hb
      rw [hb] at ha
      exact inv.hoodFresh si hsi best hbm ha
    · show ((s.committed.set si
        (s.committed.getD si [] ++ [best.index])).getD i []).Nodup
      rw [comm_getD_ne i hii]
      exact inv.commNodup i hi
  -- commDisj
  · intro i k hi hk hik c hci hck
    rcases comm_cases i hi c hci with ⟨hii, hcc1⟩ | ⟨hii, hold1⟩
    · rcases comm_cases k hk c hck with ⟨hkk, _⟩ | ⟨hkk, hold2⟩
      · exact hik (hii.trans hkk.symm)
      · rcases hcc1 with hold1 | hbe
        · refine inv.commDisj si k hsi hk ?_ c hold1 hold2
          rw [hii] at hik
          exact hik
        · refine inv.base.hoodComm si hsi best hbm k hk ?_ ⟨?_, ?_⟩
          · rw [hii] at hik
            exact fun he => hik he.symm
          · rw [← hbe]
            exact hold2
          · rw [hbprops]
            exact sharesKey_of_sameKeys _ _ ks hsame.1 hseedkeys
              (hsame.2 _ (getD_mem_of_lt seeds k default hk))
    · rcases comm_cases k hk c hck with ⟨hkk, hcc2⟩ | ⟨hkk, hold2⟩
      · rcases hcc2 with hold2 | hbe
        · refine inv.commDisj i si hi hsi ?_ c hold1 hold2
          rw [hkk] at hik
          exact hik
        · refine inv.base.hoodComm si hsi best hbm i hi ?_ ⟨?_, ?_⟩
          · rw [hkk] at hik
            exact fun he => hik he
          · rw [← hbe]
            exact hold1
          · rw [hbprops]
            exact sharesKey_of_sameKeys _ _ ks hsame.1 hseedkeys
              (hsame.2 _ (getD_mem_of_lt seeds i default hi))
      · exact inv.commDisj i k hi hk hik c hold1 hold2
  -- accCount
  · show s.accretions + 1 + seeds.length =
      ((s.committed.set si
        (s.committed.getD si [] ++ [best.index])).map List.length).sum
    have hsum := sum_map_length_set s.committed si
      (s.committed.getD si [] ++ [best.index]) hsComm
    have hlen2 : (s.committed.getD si [] ++ [best.index]).length =
        (s.committed.getD si []).length + 1 := by
      simp
    have holdacc := inv.accCount
    omega

/-- Any seed turn preserves the C4 invariant. -/
theorem seedTurn_inv4 (jury : Jury) (mesh : Mesh) (seeds : List Neighbor)
    (ks : List String) (nseeds iteration si : ℕ) (hsi : si < seeds.length)
    (seed : Neighbor) (s : GrowState) (hok : SeedsOK seeds)
    (hsame : SameProps seeds ks) (hnx : 1 ≤ mesh.nx) (hny : 1 ≤ mesh.ny)
    (inv : GrowInv4 seeds mesh s) :
    GrowInv4 seeds mesh (seedTurn jury mesh nseeds iteration si seed s).1 := by
  rcases seedTurn_cases jury mesh nseeds iteration si seed s with h | ⟨j, hj, g, h⟩
  · rw [h]
    exact inv
  · rw [h]
    exact commitState_inv4 mesh seeds ks si hsi s j g hj hok hsame hnx hny inv

/-- The per-seed singleton committed lists of the initial state count the
seeds. -/
theorem sum_map_singleton_length (seeds : List Neighbor) :
    ((seeds.map fun s => [s.index]).map List.length).sum = seeds.length := by
  induction seeds with
  | nil => rfl
  | cons a rest ih =>
    simp only [List.map_cons, List.sum_cons, ih]
    show 1 + rest.length = rest.length + 1
    omega

/-- Initialization of `grow` establishes the C4 invariant for valid seeds
sharing one non-empty property set. -/
theorem growInit_inv4 (seeds : List Neighbor) (mesh : Mesh) (goal0 : ℚ)
    (ks : List String) (hok : SeedsOK seeds) (hsame : SameProps seeds ks)
    (hvalid : ∀ a ∈ seeds, (mesh.cellAt a.index).isSome = true)
    (hnx : 1 ≤ mesh.nx) (hny : 1 ≤ mesh.ny) :
    GrowInv4 seeds mesh (growInit seeds mesh goal0) := by
  have hbase := growInit_inv seeds mesh goal0 hok
  set e := seeds.foldl (fun acc s => commitProps acc s.index s.props)
    fun _ _ => 0 with he
  have hlen : (initHood mesh e [] seeds).length = seeds.length := hbase.hoodLen
  have hshape : ∀ si, si < seeds.length →
      ∃ h2 cell, (initHood mesh e [] seeds).getD si [] =
        newNeighborsOf mesh e h2 cell := by
    intro si hsi
    have hmem : (initHood mesh e [] seeds).getD si [] ∈
        initHood mesh e [] seeds := by
      refine getD_mem_of_lt _ si [] ?_
      rw [hlen]
      exact hsi
    rcases initHood_lists seeds mesh e [] _ hmem with h | h
    · exact absurd h (List.not_mem_nil _)
    · exact h
  have hcomm : ∀ i, i < seeds.length →
      (seeds.map fun s : Neighbor => [s.index]).getD i [] =
        [(seeds.getD i default).index] := by
    intro i hi
    rw [getD_map_lt (fun s : Neighbor => [s.index]) seeds i hi [] default]
  constructor
  -- base
  · exact hbase
  -- hoodNodup
  · intro si hsi
    obtain ⟨h2, cell, heq⟩ := hshape si hsi
    show ((initHood mesh e [] seeds).getD si []).Pairwise
      fun a b => a.index ≠ b.index
    rw [heq]
    exact newNeighborsOf_pairwise mesh e h2 cell hnx hny
  -- hoodValid
  · intro si hsi n hn
    obtain ⟨h2, cell, heq⟩ := hshape si hsi
    have hn2 : n ∈ (initHood mesh e [] seeds).getD si [] := hn
    rw [heq] at hn2
    exact (mem_newNeighborsOf hn2).2.1
  -- hoodFresh
  · intro si hsi n hn hmem
    obtain ⟨h2, cell, heq⟩ := hshape si hsi
    have hn2 : n ∈ (initHood mesh e [] seeds).getD si [] := hn
    rw [heq] at hn2
    have hmem2 : n.index ∈ (seeds.map fun s : Neighbor => [s.index]).getD si []
      := hmem
    rw [hcomm si hsi, List.mem_singleton] at hmem2
    have hseedmem : seeds.getD si default ∈ seeds :=
      getD_mem_of_lt seeds si default hsi
    have hkeys : (seeds.getD si default).props.map Prod.fst = ks :=
      hsame.2 _ hseedmem
    have hpne : (seeds.getD si default).props ≠ [] := by
      intro h0
      rw [h0] at hkeys
      exact hsame.1 hkeys.symm
    obtain ⟨pv, hpv⟩ := List.exists_mem_of_ne_nil _ hpne
    have hnp : n.props = (seeds.getD si default).props :=
      hbase.propsEq si hsi n hn
    have hfree := (mem_newNeighborsOf hn2).2.2.1 pv (by rw [hnp]; exact hpv)
    have hnz := foldl_commitProps_member seeds (fun _ _ => 0) _ hseedmem
      hok.2 pv hpv
    rw [hmem2] at hfree
    exact hnz hfree
  -- commValid
  · intro i hi c hc
    have hc2 : c ∈ (seeds.map fun s : Neighbor => [s.index]).getD i [] := hc
    rw [hcomm i hi, List.mem_singleton] at hc2
    rw [hc2]
    exact hvalid _ (getD_mem_of_lt seeds i default hi)
  -- commNodup
  · intro i hi
    show ((seeds.map fun s : Neighbor => [s.index]).getD i []).Nodup
    rw [hcomm i hi]
    exact List.nodup_singleton _
  -- commDisj
  · intro i k hi hk hik c hci hck
    have hcl := hbase.claims i k hi hk hik c hci hck
    have ht := sharesKey_of_sameKeys _ _ ks hsame.1
      (hsame.2 _ (getD_mem_of_lt seeds i default hi))
      (hsame.2 _ (getD_mem_of_lt seeds k default hk))
    rw [ht] at hcl
    exact absurd hcl (by decide)
  -- accCount
  · show 0 + seeds.length =
      ((seeds.map fun s : Neighbor => [s.index]).map List.length).sum
    rw [sum_map_singleton_length]
    omega

/-- One pass of `grow` preserves the C4 invariant. -/
theorem growPass_inv4 (jury : Jury) (mesh : Mesh) (seeds : List Neighbor)
    (ks : List String) (iteration : ℕ) (s : GrowState) (hok : SeedsOK seeds)
    (hsame : SameProps seeds ks) (hnx : 1 ≤ mesh.nx) (hny : 1 ≤ mesh.ny)
    (inv : GrowInv4 seeds mesh s) :
    GrowInv4 seeds mesh (growPass jury mesh seeds iteration s).1 := by
  unfold growPass
  suffices h : ∀ (l : List ℕ), (∀ x ∈ l, x < seeds.length) →
      ∀ (sb : GrowState × Bool), GrowInv4 seeds mesh sb.1 →
      GrowInv4 seeds mesh ((l.foldl (fun acc si =>
        let r := seedTurn jury mesh seeds.length iteration si
          (seeds.getD si default) acc.1
        (r.1, acc.2 || r.2)) sb).1) by
    exact h (List.range seeds.length) (fun x hx => List.mem_range.mp hx)
      (s, false) inv
  intro l
  induction l with
  | nil =>
    intro _ sb hsb
    exact hsb
  | cons x xs ih =>
    intro hx sb hsb
    rw [List.foldl_cons]
    refine ih (fun y hy => hx y (List.mem_cons.mpr (Or.inr hy))) _ ?_
    exact seedTurn_inv4 jury mesh seeds ks seeds.length iteration x
      (hx x (List.mem_cons.mpr (Or.inl rfl))) (seeds.getD x default) sb.1
      hok hsame hnx hny hsb

/-- The accretion loop of `grow` preserves the C4 invariant. -/
theorem growLoop_inv4 (jury : Jury) (mesh : Mesh) (seeds : List Neighbor)
    (ks : List String) (hok : SeedsOK seeds) (hsame : SameProps seeds ks)
    (hnx : 1 ≤ mesh.nx) (hny : 1 ≤ mesh.ny) :
    ∀ (fuel iteration : ℕ) (s : GrowState), GrowInv4 seeds mesh s →
    GrowInv4 seeds mesh (growLoop jury mesh seeds fuel iteration s) := by
  intro fuel
  induction fuel with
  | zero =>
    intro iteration s hs
    exact hs
  | succ fuel ih =>
    intro iteration s hs
    show GrowInv4 seeds mesh
      (if (growPass jury mesh seeds iteration s).2 = true then
        growLoop jury mesh seeds fuel (iteration + 1)
          (growPass jury mesh seeds iteration s).1
      else (growPass jury mesh seeds iteration s).1)
    split
    · exact ih _ _
        (growPass_inv4 jury mesh seeds ks iteration s hok hsame hnx hny hs)
    · exact growPass_inv4 jury mesh seeds ks iteration s hok hsame hnx hny hs

/-- A full run of `grow` satisfies the C4 invariant. -/
theorem growRun_inv4 (jury : Jury) (seeds : List Neighbor) (mesh : Mesh)
    (goal0 : ℚ) (ks : List String) (hok : SeedsOK seeds)
    (hsame : SameProps seeds ks)
    (hvalid : ∀ a ∈ seeds, (mesh.cellAt a.index).isSome = true)
    (hnx : 1 ≤ mesh.nx) (hny : 1 ≤ mesh.ny) :
    GrowInv4 seeds mesh (growRun jury seeds mesh goal0) :=
  growLoop_inv4 jury mesh seeds ks hok hsame hnx hny
    (mesh.size - seeds.length) 0 _
    (growInit_inv4 seeds mesh goal0 ks hok hsame hvalid hnx hny)

/-- The C4 invariant bounds the number of accretions by the number of mesh
cells minus the number of seeds. -/
theorem inv4_bound (seeds : List Neighbor) (mesh : Mesh) (s : GrowState)
    (inv : GrowInv4 seeds mesh s) :
    s.accretions ≤ mesh.size - seeds.length := by
  have hclen : s.committed.length = seeds.length := inv.base.commLen
  have hmemlist : ∀ l ∈ s.committed, ∃ i, i < seeds.length ∧
      l = s.committed.getD i [] := by
    intro l hl
    obtain ⟨i, hi, heq⟩ := List.mem_iff_getElem.mp hl
    refine ⟨i, by rw [← hclen]; exact hi, ?_⟩
    rw [getD_eq_getElem s.committed i [] hi, heq]
  have hnd : s.committed.flatten.Nodup := by
    rw [List.nodup_flatten]
    constructor
    · intro l hl
      obtain ⟨i, hi, heq⟩ := hmemlist l hl
      rw [heq]
      exact inv.commNodup i hi
    · rw [List.pairwise_iff_getElem]
      intro i j hi hj hij a ha hb
      have hi2 : i < seeds.length := by rw [← hclen]; exact hi
      have hj2 : j < seeds.length := by rw [← hclen]; exact hj
      have ha2 : a ∈ s.committed.getD i [] := by
        rw [getD_eq_getElem s.committed i [] hi]
        exact ha
      have hb2 : a ∈ s.committed.getD j [] := by
        rw [getD_eq_getElem s.committed j [] hj]
        exact hb
      exact inv.commDisj i j hi2 hj2 (by omega) a ha2 hb2
  have hvalid : ∀ c ∈ s.committed.flatten, 0 ≤ c ∧ c.toNat < mesh.size := by
    intro c hc
    rw [List.mem_flatten] at hc
    obtain ⟨l, hl, hcmem⟩ := hc
    obtain ⟨i, hi, heq⟩ := hmemlist l hl
    rw [heq] at hcmem
    have hv := inv.commValid i hi c hcmem
    unfold Mesh.cellAt at hv
    have hneg : ¬(c < 0) := by
      intro hlt
      rw [if_pos hlt] at hv
      simp at hv
    rw [if_neg hneg] at hv
    have hsz : mesh.size = mesh.cells.length := rfl
    refine ⟨by omega, ?_⟩
    by_contra hge
    rw [List.getD_eq_default mesh.cells none (by omega)] at hv
    simp at hv
  have hmapnd : (s.committed.flatten.map Int.toNat).Nodup := by
    refine List.Nodup.map_on ?_ hnd
    intro x hx y hy hxy
    have h1 := (hvalid x hx).1
    have h2 := (hvalid y hy).1
    omega
  have hsub : (s.committed.flatten.map Int.toNat).toFinset ⊆
      Finset.range mesh.size := by
    intro x hx
    rw [List.mem_toFinset] at hx
    obtain ⟨q, hq, hqx⟩ := List.mem_map.mp hx
    rw [Finset.mem_range, ← hqx]
    exact (hvalid q hq).2
  have hcard := Finset.card_le_card hsub
  rw [List.toFinset_card_of_nodup hmapnd, Finset.card_range,
    List.length_map] at hcard
  have hflatlen : s.committed.flatten.length =
      (s.committed.map List.length).sum := List.length_flatten s.committed
  have hacc := inv.accCount
  omega

/-- Claim C4 (amended): for a run of the growth loop on valid seeds that all
carry the same non-empty set of physical properties, on a mesh with positive
x and y dimensions, the total number of accretions never exceeds the mesh
size minus the seed count; and the loop returns the state of a pass as soon
as that pass produces zero growth across all seeds. -/
theorem c4_bounded_growth (jury : Jury) (seeds : List Neighbor) (mesh : Mesh)
    (goal0 : ℚ) (ks : List String) (hok : SeedsOK seeds)
    (hsame : SameProps seeds ks)
    (hvalid : ∀ a ∈ seeds, (mesh.cellAt a.index).isSome = true)
    (hnx : 1 ≤ mesh.nx) (hny : 1 ≤ mesh.ny) :
    (growRun jury seeds mesh goal0).accretions ≤ mesh.size - seeds.length ∧
    ∀ (fuel iteration : ℕ) (s : GrowState),
      (growPass jury mesh seeds iteration s).2 = false →
      growLoop jury mesh seeds (fuel + 1) iteration s =
        (growPass jury mesh seeds iteration s).1 := by
  constructor
  · exact inv4_bound seeds mesh _
      (growRun_inv4 jury seeds mesh goal0 ks hok hsame hvalid hnx hny)
  · intro fuel iteration s h
    show (if (growPass jury mesh seeds iteration s).2 = true then
        growLoop jury mesh seeds fuel (iteration + 1)
          (growPass jury mesh seeds iteration s).1
      else (growPass jury mesh seeds iteration s).1) =
      (growPass jury mesh seeds iteration s).1
    rw [h]
    simp

/-- Witness for the amended C4 bound: the two same-property seeds of the
three-cell mesh satisfy every hypothesis, and the bound evaluates. -/
theorem c4_witness :
    (SeedsOK cseedsW ∧ SameProps cseedsW ["density"] ∧
      (∀ a ∈ cseedsW, (mesh13.cellAt a.index).isSome = true) ∧
      1 ≤ mesh13.nx ∧ 1 ≤ mesh13.ny) ∧
    (growRun cjuryNone cseedsW mesh13 0).accretions ≤
      mesh13.size - cseedsW.length := by
  have hok : SeedsOK cseedsW := by
    constructor
    · decide
    · decide
  have hsame : SameProps cseedsW ["density"] := by
    constructor
    · decide
    · decide
  refine ⟨⟨hok, hsame, by decide, by decide, by decide⟩, ?_⟩
  exact (c4_bounded_growth cjuryNone cseedsW mesh13 0 ["density"] hok hsame
    (by decide) (by decide) (by decide)).1

end Harvester
